import Mathlib

/-
Verification of the xstring copy-on-write byte-string library (src/xs.c).

The C code is shallowly embedded: the 16-byte tagged union `xs` becomes a
Lean sum type, the process heap becomes an explicit map from allocation
addresses to byte buffers, and every operation is a pure state-passing
function translated line by line from the source.  Machine integers are
modelled as Nat with explicit `% 2 ^ w` at the points where the C code can
wrap (the 54-bit size bitfield, the 4-bit space_left bitfield, the 8-bit
reference-count byte, and size_t subtraction).  Out-of-bounds stores are
dropped and out-of-bounds loads read 0; both situations are undefined
behaviour in the C source, and the theorems below either avoid them by
hypothesis or exhibit them deliberately.
-/

namespace XS

/-! ## The heap

A `Mem` is the allocator state: `next` is the next fresh address, `bufs`
maps an address to the byte buffer allocated there (`none` once freed or
never allocated).  `malloc` returns `next` and bumps it; the C contents of
fresh memory are indeterminate and are modelled as zero bytes.  `realloc`
is modelled as an in-place resize at the same address, which is one of the
behaviours C permits and the one the code's callers assume. -/

structure Mem where
  next : Nat
  bufs : Nat → Option (List Nat)

def Mem.empty : Mem := ⟨0, fun _ => none⟩

def Mem.find (m : Mem) (a : Nat) : Option (List Nat) := m.bufs a

def Mem.updBuf (m : Mem) (a : Nat) (f : List Nat → List Nat) : Mem :=
  ⟨m.next, fun q => if q = a then (m.bufs a).map f else m.bufs q⟩

def Mem.alloc (m : Mem) (n : Nat) : Nat × Mem :=
  (m.next, ⟨m.next + 1,
    fun q => if q = m.next then some (List.replicate n 0) else m.bufs q⟩)

def Mem.free (m : Mem) (a : Nat) : Mem :=
  ⟨m.next, fun q => if q = a then none else m.bufs q⟩

/-- Reading one byte; a load from a freed/unallocated address or past the
end of a buffer yields 0 (undefined behaviour in the C source). -/
def Mem.read (m : Mem) (a i : Nat) : Nat := ((m.bufs a).getD []).getD i 0

/-- Storing one byte; `List.set` drops out-of-range stores, matching the
convention that an out-of-bounds write (UB in C) has no observable
effect on any allocated buffer. -/
def Mem.write (m : Mem) (a i v : Nat) : Mem := m.updBuf a (fun b => b.set i v)

/-- Model of `realloc(ptr, n)`: same address, contents preserved, grown
with indeterminate (here: zero) bytes. -/
def Mem.realloc (m : Mem) (a n : Nat) : Mem :=
  m.updBuf a (fun b => (b ++ List.replicate (n - b.length) 0).take n)

/-- All allocated addresses are below the allocation cursor. -/
def MemWF (m : Mem) : Prop := ∀ a, m.next ≤ a → m.bufs a = none

/-! ## Byte-list helpers -/

/-- Wrapping size_t subtraction: `(a - b) mod 2^64`. -/
def wsub (a b : Nat) : Nat := (a + 2 ^ 64 - b) % 2 ^ 64

/-- Writing a run of bytes at an offset (memcpy into a buffer); stores past
the end of the destination are dropped. -/
def listWriteBytes (b : List Nat) (off : Nat) : List Nat → List Nat
  | [] => b
  | v :: vs => listWriteBytes (b.set off v) (off + 1) vs

/-- One buffer-internal `memmove(dst, src, n)`: every index in
`[dstOff, dstOff + n)` receives the byte at the corresponding source index
of the old buffer (memmove copies as if through a temporary), other
indices keep their bytes.  Only indices inside the buffer are written. -/
def listMove (b : List Nat) (dstOff srcOff n : Nat) : List Nat :=
  (List.range b.length).map fun k =>
    if dstOff ≤ k ∧ k < dstOff + n then b.getD (srcOff + (k - dstOff)) 0 else b.getD k 0

/-- Length of a NUL-terminated byte sequence, as `strlen` computes it:
the number of bytes before the first zero byte. -/
def cstrlen (p : List Nat) : Nat := (p.takeWhile (fun b => b != 0)).length

/-- The `strlen p + 1` bytes that `memcpy(dst, p, strlen(p)+1)` transfers:
the payload up to the first NUL plus the terminator itself. -/
def cbytes (p : List Nat) : List Nat := p.takeWhile (fun b => b != 0) ++ [0]

/-! ## The string representation

The C type is a 16-byte union: an inline variant (15 data bytes, then one
byte whose low nibble is the 4-bit `space_left` field and whose bit 4 is
the `is_ptr` tag), overlaid with a heap variant (`char *ptr` in bytes 0-7,
a 54-bit `size` bitfield in the low 54 bits of bytes 8-15, a 6-bit
`capacity` bitfield above it, and the same tag bit).  For inline strings
the tag and flag bits are always zero, so byte 15 of the inline buffer is
exactly `space_left`; the inline variant therefore carries the full
16-byte buffer, and the heap variant carries the three decoded fields. -/

inductive Xs where
  | inl (buf : List Nat)
  | hp (ptr sz cap : Nat)
deriving Repr, DecidableEq

/-- The `(xs){ .space_left = 15 }` compound literal: zero bytes, byte 15
holding space_left = 15. -/
def xs_literal_empty : Xs := .inl (List.replicate 15 0 ++ [15])

def xs_is_ptr : Xs → Bool
  | .inl _ => false
  | .hp _ _ _ => true

def xs_size : Xs → Nat
  | .inl buf => 15 - buf.getD 15 0
  | .hp _ sz _ => sz

def xs_capacity : Xs → Nat
  | .inl _ => 15
  | .hp _ _ cap => 2 ^ cap - 1

/-- One byte of `xs_data(x)[i]` in the current memory. -/
def readData (m : Mem) (x : Xs) (i : Nat) : Nat :=
  match x with
  | .inl buf => buf.getD i 0
  | .hp p _ _ => m.read p i

/-- The observable payload: the `xs_size x` bytes starting at `xs_data x`. -/
def dataBytes (m : Mem) (x : Xs) : List Nat :=
  (List.range (xs_size x)).map (readData m x)

/-- A run of `n` bytes starting at `xs_data x + off`. -/
def readBytesX (m : Mem) (x : Xs) (off n : Nat) : List Nat :=
  (List.range n).map fun k => readData m x (off + k)

/-- The bytes of the C string starting at `xs_data x + off` (the memory
simply continues there; `cstrlen` performs the NUL scan). -/
def readCStrX (m : Mem) (x : Xs) (off : Nat) : List Nat :=
  match x with
  | .inl buf => buf.drop off
  | .hp p _ _ => ((m.find p).getD []).drop off

/-- The reference-count byte `*(x->ptr + x->size + 1)`; 0 for inline
strings (the macro is only ever applied to heap strings). -/
def refcnt (m : Mem) (x : Xs) : Nat :=
  match x with
  | .hp p sz _ => m.read p (sz + 1)
  | .inl _ => 0

/-- The final `if (xs_is_ptr(s)) xs_ref_counter(s) = 1` step shared by the
mutating operations. -/
def setRef1 (x : Xs) (m : Mem) : Mem :=
  match x with
  | .hp p sz _ => m.write p (sz + 1) 1
  | .inl _ => m

/-- Assignment to `x->size` (54-bit bitfield) resp. `x->space_left`
(4-bit bitfield, computed as `15 - n` in size_t arithmetic). -/
def setSize (x : Xs) (n : Nat) : Xs :=
  match x with
  | .hp p _ cap => .hp p (n % 2 ^ 54) cap
  | .inl buf => .inl (buf.set 15 (wsub 15 n % 16))

/-- A store through `xs_data x + i`: updates the inline buffer in place or
the heap buffer in memory. -/
def writeX (x : Xs) (m : Mem) (i v : Nat) : Xs × Mem :=
  match x with
  | .inl buf => (.inl (buf.set i v), m)
  | .hp p _ _ => (x, m.write p i v)

/-- memcpy of a byte run to `xs_data x + off`. -/
def memcpyX (x : Xs) (m : Mem) (off : Nat) (bs : List Nat) : Xs × Mem :=
  match x with
  | .inl buf => (.inl (listWriteBytes buf off bs), m)
  | .hp p _ _ => (x, m.updBuf p (fun b => listWriteBytes b off bs))

/-- memmove within `xs_data x`. -/
def memmoveX (x : Xs) (m : Mem) (dstOff srcOff n : Nat) : Xs × Mem :=
  match x with
  | .inl buf => (.inl (listMove buf dstOff srcOff n), m)
  | .hp p _ _ => (x, m.updBuf p (fun b => listMove b dstOff srcOff n))

/-! ## Construction and growth -/

/-- Number of significant bits of `n` (0 for 0), with explicit fuel so
the kernel can evaluate it; 64 units of fuel cover every value that fits
the model's machine words. -/
def bitlen : Nat → Nat → Nat
  | 0, _ => 0
  | fuel + 1, n => if n = 0 then 0 else bitlen fuel (n / 2) + 1

/-- `ilog2(n) = 32 - __builtin_clz(n) - 1`: floor log2 of the argument
truncated to uint32 (`__builtin_clz(0)` would be UB; all call sites pass a
positive value below 2^32 under the well-formedness hypotheses used
here). -/
def ilog2 (n : Nat) : Nat := bitlen 64 (n % 2 ^ 32) - 1

/-- `xs_new(x, p)`: construct from the NUL-terminated byte sequence `p`.
`len = strlen(p) + 1`; a total length above 16 allocates `1 << (ilog2 len
+ 1)` bytes on the heap (note: no extra byte beyond `2^c` is allocated;
the reference-count byte at offset `len` merely happens to fit because
`2^c ≥ len + 1`), otherwise the bytes land in the inline buffer. -/
def xs_new (p : List Nat) (m : Mem) : Xs × Mem :=
  let len := cstrlen p + 1
  if 16 < len then
    let cap := (ilog2 len + 1) % 2 ^ 6
    let pm := m.alloc (2 ^ cap)
    let m1 := pm.2.updBuf pm.1 (fun b => listWriteBytes b 0 (cbytes p))
    let m2 := m1.write pm.1 ((len - 1) + 1) 1
    (.hp pm.1 ((len - 1) % 2 ^ 54) cap, m2)
  else
    let buf0 := List.replicate 15 0 ++ [15]
    let buf1 := listWriteBytes buf0 0 (cbytes p)
    (.inl (buf1.set 15 (wsub 15 (len - 1) % 16)), m)

/-- The size bitfield occupies the low 54 bits of bytes 8-15 of the union.
When `xs_grow` migrates an inline string to the heap it assigns `ptr`,
`is_ptr` and `capacity` but never `size`, so the size field afterwards
holds whatever the inline buffer's bytes 8-14 (the low 6 bits of byte 14)
spell as a little-endian number.  This function decodes that aliased
value. -/
def inlineSizeBits (buf : List Nat) : Nat :=
  buf.getD 8 0 + buf.getD 9 0 * 2 ^ 8 + buf.getD 10 0 * 2 ^ 16 +
    buf.getD 11 0 * 2 ^ 24 + buf.getD 12 0 * 2 ^ 32 + buf.getD 13 0 * 2 ^ 40 +
    buf.getD 14 0 % 64 * 2 ^ 48

/-- `xs_grow(x, len)`: no-op when `len ≤ capacity`; otherwise reallocate
(heap) or migrate the full 16-byte inline representation into a fresh
buffer (inline), setting the tag and the new capacity class.  The inline
branch leaves the size bitfield aliasing the old payload bytes, see
`inlineSizeBits`. -/
def xs_grow (x : Xs) (len : Nat) (m : Mem) : Xs × Mem :=
  if len ≤ xs_capacity x then (x, m)
  else
    let c := (ilog2 len + 1) % 2 ^ 6
    match x with
    | .hp p sz _ => (.hp p sz c, m.realloc p (2 ^ c))
    | .inl buf =>
        let pm := m.alloc (2 ^ c)
        let m1 := pm.2.updBuf pm.1 (fun b => listWriteBytes b 0 buf)
        (.hp pm.1 (inlineSizeBits buf) c, m1)

/-- `xs_free`: releases the heap buffer (with no reference-count check)
and resets the value to the empty literal. -/
def xs_free (x : Xs) (m : Mem) : Xs × Mem :=
  match x with
  | .hp p _ _ => (xs_literal_empty, m.free p)
  | .inl _ => (xs_literal_empty, m)

/-! ## Sharing and copy-on-write -/

/-- `xs_cow(x)`: decrement the shared count (an 8-bit char, hence the
mod-256 wrap), then rebuild `x` as `xs_tmp(x->ptr)` — a fresh,
exclusively owned deep copy of the buffer contents read back as a C
string — and bit-copy the 16-byte temporary over `x`. -/
def xs_cow (x : Xs) (m : Mem) : Xs × Mem :=
  match x with
  | .hp p sz _ =>
      let m1 := m.write p (sz + 1) ((m.read p (sz + 1) + 255) % 256)
      xs_new ((m1.find p).getD []) m1
  | .inl buf => (.inl buf, m)

/-- `xs_copy(dest, src)` — the assignment operator.  First the buffer
`dest` currently owns is released (count decremented; freed at zero).
Then, if `src` is heap with a saturated count, a deep clone is built via
`xs_tmp(src->ptr)`; otherwise the 16-byte representation is bit-copied
and a heap source's count is incremented. -/
def xs_copy (dest src : Xs) (m : Mem) : Xs × Mem :=
  let m1 :=
    match dest with
    | .hp p sz _ =>
        let md := m.write p (sz + 1) ((m.read p (sz + 1) + 255) % 256)
        if md.read p (sz + 1) == 0 then md.free p else md
    | .inl _ => m
  match src with
  | .hp p sz cap =>
      if m1.read p (sz + 1) == 255 then
        xs_new ((m1.find p).getD []) m1
      else
        (.hp p sz cap, m1.write p (sz + 1) ((m1.read p (sz + 1) + 1) % 256))
  | .inl buf => (.inl buf, m1)

/-! ## Concatenation -/

/-- Body of `xs_concat` after the copy-on-write check (source lines
123-150): either assemble in place, or grow a fresh temporary, assemble
into it, free the old buffer and take over the temporary; in both cases a
heap result gets its reference count set to 1 at the very end. -/
def xs_concat_core (string prefx sufx : Xs) (m : Mem) : Xs × Mem :=
  let pres := xs_size prefx
  let sufs := xs_size sufx
  let size := xs_size string
  let capacity := xs_capacity string
  let sm :=
    if size + pres + sufs ≤ capacity then
      let sm1 := memmoveX string m pres 0 size
      let sm2 := memcpyX sm1.1 sm1.2 0 (readBytesX sm1.2 prefx 0 pres)
      let sm3 := memcpyX sm2.1 sm2.2 (pres + size) (readBytesX sm2.2 sufx 0 (sufs + 1))
      (setSize sm3.1 (size + pres + sufs), sm3.2)
    else
      let tm := xs_grow xs_literal_empty (size + pres + sufs) m
      let tm1 := memcpyX tm.1 tm.2 pres (readBytesX tm.2 string 0 size)
      let tm2 := memcpyX tm1.1 tm1.2 0 (readBytesX tm1.2 prefx 0 pres)
      let tm3 := memcpyX tm2.1 tm2.2 (pres + size) (readBytesX tm2.2 sufx 0 (sufs + 1))
      let m5 := (xs_free string tm3.2).2
      (setSize tm3.1 (size + pres + sufs), m5)
  (sm.1, setRef1 sm.1 sm.2)

/-- `xs_concat(string, prefix, suffix)`: copy-on-write when the string is
heap and shared, then the core. -/
def xs_concat (string prefx sufx : Xs) (m : Mem) : Xs × Mem :=
  let sm :=
    if xs_is_ptr string && (refcnt m string != 1) then xs_cow string m
    else (string, m)
  xs_concat_core sm.1 prefx sufx sm.2

/-! ## Trim -/

/-- Membership in the 256-entry bitmask built from the trim/delimiter set:
`set_bit` is applied to the `strlen` many leading non-NUL bytes of the
set, and both sides are cast to uint8_t. -/
def isMember (s : List Nat) (b : Nat) : Bool :=
  (s.takeWhile (fun c => c != 0)).any (fun c => c % 256 == b % 256)

/-- The forward scan `for (i = 0; i < n; i++) if (!memb(read i)) break;`
starting at index `i` with `fuel` iterations left: returns the first
index whose byte fails `memb`, or `i + fuel`. -/
def fwdScanAux (read : Nat → Nat) (memb : Nat → Bool) : Nat → Nat → Nat
  | i, 0 => i
  | i, fuel + 1 => if memb (read i) then fwdScanAux read memb (i + 1) fuel else i

def fwdScan (read : Nat → Nat) (memb : Nat → Bool) (n : Nat) : Nat :=
  fwdScanAux read memb 0 n

/-- The backward scan `for (; slen > 0; slen--) if (!memb(read (slen-1)))
break;`: returns one past the last index whose byte fails `memb`, or 0. -/
def bwdScan (read : Nat → Nat) (memb : Nat → Bool) : Nat → Nat
  | 0 => 0
  | s + 1 => if memb (read s) then bwdScan read memb s else s + 1

/-- Body of `xs_trim` after the copy-on-write check (source lines
161-196).  Note the span arithmetic `slen -= i` is size_t subtraction:
when every byte of the string is in the trim set the forward scan returns
the full length while the backward scan returns 0, and the subtraction
wraps to a value near 2^64 — undefined behaviour in the C source
(a near-2^64-byte memmove), modelled here with wrapping arithmetic and
contained moves. -/
def xs_trim_core (x : Xs) (trimset : List Nat) (m : Mem) : Xs × Mem :=
  let memb := isMember trimset
  let slen := xs_size x
  let i := fwdScan (readData m x) memb slen
  let slen2 := bwdScan (readData m x) memb slen
  let n := wsub slen2 i
  let xm1 := memmoveX x m 0 i n
  let xm2 :=
    if readData xm1.2 xm1.1 n != 0 then writeX xm1.1 xm1.2 n 0 else xm1
  let x3 := setSize xm2.1 n
  (x3, setRef1 x3 xm2.2)

/-- `xs_trim(x, trimset)`: immediate return on an empty trim set (no
copy-on-write, no count reset), else COW-if-shared and the core. -/
def xs_trim (x : Xs) (trimset : List Nat) (m : Mem) : Xs × Mem :=
  if trimset.getD 0 0 == 0 then (x, m)
  else
    let xm :=
      if xs_is_ptr x && (refcnt m x != 1) then xs_cow x m else (x, m)
    xs_trim_core xm.1 trimset xm.2

/-! ## Tokenization -/

/-- The test `if (xs_data(x) == '\0')` at the top of `xs_tok` compares the
data pointer itself against NULL.  The inline buffer's address and a
malloc result are never null, so the condition is constantly false (the
spec flags this as an apparent defect: the author presumably meant to
test the first byte). -/
def dataPtrNull (_ : Xs) : Bool := false

/-- Body of `xs_tok` after the initial NULL handling, the empty-delimiter
early return and the copy-on-write check (source lines 241-294).  `old`
models the process-wide `static xs *old` remainder slot (`none` = NULL
pointer).  Returns (token-or-NULL, new remainder slot, new memory). -/
def xs_tok_core (x : Xs) (delim : List Nat) (old : Option Xs) (m : Mem) :
    Option Xs × Option Xs × Mem :=
  let memb := isMember delim
  let xlen := xs_size x
  let i := fwdScan (readData m x) memb xlen
  let xlen1 := xlen - i
  let xm1 := memmoveX x m 0 i xlen1
  let xm2 := writeX xm1.1 xm1.2 xlen1 0
  let x3 := setSize xm2.1 xlen1
  if readData xm2.2 x3 0 == 0 then
    let om :=
      match old with
      | none => (none, xm2.2)
      | some o =>
          let r := xs_copy o x3 xm2.2
          (some r.1, r.2)
    (none, om.1, setRef1 x3 om.2)
  else
    let j := fwdScan (readData xm2.2 x3) (fun b => !(memb b)) xlen1
    if readData xm2.2 x3 j == 0 then
      let om :=
        match old with
        | none => (none, xm2.2)
        | some o =>
            let r := xs_copy o (xs_new [] xm2.2).1 xm2.2
            (some r.1, r.2)
      (some x3, om.1, setRef1 x3 om.2)
    else
      let xm3 := writeX x3 xm2.2 j 0
      let rest := readCStrX xm3.2 xm3.1 (j + 1)
      let om := xs_new rest xm3.2
      let x5 := setSize xm3.1 j
      (some x5, some om.1, setRef1 x5 om.2)

/-- `xs_tok(x, delim)`: `none` for `x` continues from the retained
remainder (`x = xs_copy(xs_tmp(""), old)`; with a NULL `old` the copy's
guard returns the empty temporary unchanged).  The dead pointer-vs-NUL
comparison and the empty-delimiter early return precede the
copy-on-write check and the core. -/
def xs_tok (xOpt : Option Xs) (delim : List Nat) (old : Option Xs) (m : Mem) :
    Option Xs × Option Xs × Mem :=
  let xm :=
    match xOpt with
    | some x => (x, m)
    | none =>
        match old with
        | none => ((xs_new [] m).1, m)
        | some o => xs_copy (xs_new [] m).1 o m
  if dataPtrNull xm.1 then
    match old with
    | none => (none, none, xm.2)
    | some o =>
        let r := xs_copy o xm.1 xm.2
        (none, some r.1, r.2)
  else if delim.getD 0 0 == 0 then (some xm.1, old, xm.2)
  else
    let cm :=
      if xs_is_ptr xm.1 && (refcnt xm.2 xm.1 != 1) then xs_cow xm.1 xm.2
      else xm
    xs_tok_core cm.1 delim old cm.2

/-! ## Well-formedness

`heapWF m p sz cap` is the representation invariant of a heap string as
`xs_new` establishes it and the operations preserve it: the buffer is
live with length `2^cap` (capacity class at most 54 so the size fits its
bitfield), the terminator sits at offset `sz` with the count byte after
it still inside the allocation, the payload has no interior NUL (every
string the library can build is `strlen`-faithful, since construction and
duplication go through `xs_tmp`), and the reference count is in
`[1, 255]`. -/

def heapWF (m : Mem) (p sz cap : Nat) : Prop :=
  match m.find p with
  | none => False
  | some b =>
      b.length = 2 ^ cap ∧ cap ≤ 54 ∧ sz + 2 ≤ 2 ^ cap ∧ b.getD sz 0 = 0 ∧
        (∀ i, i < sz → b.getD i 0 ≠ 0) ∧
        1 ≤ b.getD (sz + 1) 0 ∧ b.getD (sz + 1) 0 ≤ 255

/-- Invariant of any string value: a 16-byte inline buffer with a valid
space_left nibble, NUL-terminated NUL-free payload — or `heapWF`. -/
def XsWF (m : Mem) (x : Xs) : Prop :=
  match x with
  | .inl buf =>
      buf.length = 16 ∧ buf.getD 15 0 ≤ 15 ∧ buf.getD (15 - buf.getD 15 0) 0 = 0 ∧
        ∀ i, i < 15 - buf.getD 15 0 → buf.getD i 0 ≠ 0
  | .hp p sz cap => heapWF m p sz cap

instance (m : Mem) (p sz cap : Nat) : Decidable (heapWF m p sz cap) := by
  unfold heapWF
  match Mem.find m p with
  | none => exact inferInstance
  | some b => exact inferInstance

instance (m : Mem) (x : Xs) : Decidable (XsWF m x) := by
  unfold XsWF
  match x with
  | .inl buf => exact inferInstance
  | .hp p sz cap => exact inferInstance

/-- The value `x` does not point at address `a` (vacuously true for
inline values); the frame lemmas show an operation on `x` cannot touch
the buffer at such an `a` unless it allocates it fresh. -/
def ptrNe (x : Xs) (a : Nat) : Prop := ∀ p sz cap, x = .hp p sz cap → p ≠ a

/-! ## Basic lemmas about the byte-list and memory primitives -/

theorem getD_set (b : List Nat) (i v k : Nat) :
    (b.set i v).getD k 0 = if i = k ∧ k < b.length then v else b.getD k 0 := by
  induction b generalizing i k with
  | nil => simp [List.set]
  | cons a t ih =>
    cases i with
    | zero =>
        cases k with
        | zero => simp
        | succ k => simp [Nat.succ_ne_zero]
    | succ i =>
        cases k with
        | zero => simp
        | succ k =>
            simp only [List.set, List.getD_cons_succ, ih i, List.length_cons]
            by_cases h : i = k ∧ k < t.length
            · rw [if_pos h, if_pos ⟨by omega, by omega⟩]
            · rw [if_neg h, if_neg (by omega)]

theorem length_set (b : List Nat) (i v : Nat) : (b.set i v).length = b.length := by
  simp

theorem listWriteBytes_length (bs : List Nat) (b : List Nat) (off : Nat) :
    (listWriteBytes b off bs).length = b.length := by
  induction bs generalizing b off with
  | nil => rfl
  | cons v vs ih => simp [listWriteBytes, ih]

theorem listWriteBytes_getD (bs : List Nat) (b : List Nat) (off k : Nat) :
    (listWriteBytes b off bs).getD k 0 =
      if off ≤ k ∧ k < off + bs.length ∧ k < b.length then bs.getD (k - off) 0
      else b.getD k 0 := by
  induction bs generalizing b off with
  | nil =>
      simp only [listWriteBytes, List.length_nil, Nat.add_zero]
      rw [if_neg (by omega)]
  | cons v vs ih =>
    simp only [listWriteBytes, ih, listWriteBytes_length, length_set, List.length_cons]
    by_cases h1 : off + 1 ≤ k ∧ k < off + 1 + vs.length ∧ k < b.length
    · rw [if_pos h1, if_pos ⟨by omega, by omega, h1.2.2⟩]
      have hk : k - off = (k - (off + 1)) + 1 := by omega
      rw [hk, List.getD_cons_succ]
    · rw [if_neg h1, getD_set]
      by_cases h2 : off = k ∧ k < b.length
      · rw [if_pos h2, if_pos ⟨by omega, by omega, h2.2⟩]
        have hk : k - off = 0 := by omega
        rw [hk, List.getD_cons_zero]
      · rw [if_neg h2, if_neg (by omega)]

theorem rangeMap_getD (f : Nat → Nat) (n k : Nat) :
    ((List.range n).map f).getD k 0 = if k < n then f k else 0 := by
  by_cases h : k < n
  · rw [if_pos h, List.getD_eq_getElem _ _ (by simpa using h)]
    simp
  · rw [if_neg h, List.getD_eq_default _ _ (by simpa using Nat.le_of_not_lt h)]

theorem listMove_length (b : List Nat) (d s n : Nat) :
    (listMove b d s n).length = b.length := by
  simp [listMove]

theorem listMove_getD (b : List Nat) (d s n k : Nat) :
    (listMove b d s n).getD k 0 =
      if k < b.length then
        (if d ≤ k ∧ k < d + n then b.getD (s + (k - d)) 0 else b.getD k 0)
      else 0 := by
  simp only [listMove, rangeMap_getD]

theorem getD_replicate_zero (n k : Nat) : (List.replicate n 0).getD k 0 = 0 := by
  by_cases h : k < n
  · rw [List.getD_eq_getElem _ _ (by simpa using h)]
    simp
  · exact List.getD_eq_default _ _ (by simpa using Nat.le_of_not_lt h)

/-! Facts about `bitlen`. -/

theorem bitlen_zero (fuel : Nat) : bitlen fuel 0 = 0 := by
  cases fuel <;> simp [bitlen]

theorem bitlen_lt (fuel : Nat) : ∀ n, n < 2 ^ fuel → n < 2 ^ bitlen fuel n := by
  induction fuel with
  | zero => intro n h; simpa [bitlen] using h
  | succ f ih =>
      intro n h
      by_cases h0 : n = 0
      · simp [bitlen, h0]
      · simp only [bitlen, h0, if_false]
        have hpow : (2 : Nat) ^ (f + 1) = 2 * 2 ^ f := by ring
        have hdiv : n / 2 < 2 ^ f := by omega
        have := ih (n / 2) hdiv
        have h2 : n < 2 * (n / 2) + 2 := by omega
        calc n < 2 * (n / 2) + 2 := h2
          _ ≤ 2 * 2 ^ bitlen f (n / 2) := by omega
          _ = 2 ^ (bitlen f (n / 2) + 1) := by ring

theorem bitlen_pos_le (fuel : Nat) :
    ∀ n, 1 ≤ n → n < 2 ^ fuel → 2 ^ (bitlen fuel n - 1) ≤ n := by
  induction fuel with
  | zero => intro n h1 h; omega
  | succ f ih =>
      intro n h1 h
      have h0 : n ≠ 0 := by omega
      simp only [bitlen, h0, if_false, Nat.add_sub_cancel]
      by_cases hn : n = 1
      · subst hn
        simp [bitlen_zero]
      · have h2 : 2 ≤ n := by omega
        have hd1 : 1 ≤ n / 2 := by omega
        have hpow : (2 : Nat) ^ (f + 1) = 2 * 2 ^ f := by ring
        have hdiv : n / 2 < 2 ^ f := by omega
        have hb1 : 1 ≤ bitlen f (n / 2) := by
          cases f with
          | zero => omega
          | succ g =>
              have : n / 2 ≠ 0 := by omega
              simp [bitlen, this]
        have := ih (n / 2) hd1 hdiv
        calc 2 ^ bitlen f (n / 2) = 2 * 2 ^ (bitlen f (n / 2) - 1) := by
              rw [← pow_succ']
              congr 1
              omega
          _ ≤ 2 * (n / 2) := by omega
          _ ≤ n := by omega

theorem bitlen_le_of_lt_pow (fuel : Nat) :
    ∀ j n, n < 2 ^ j → bitlen fuel n ≤ j := by
  induction fuel with
  | zero => intro j n _; simp [bitlen]
  | succ f ih =>
      intro j n h
      by_cases h0 : n = 0
      · simp [bitlen, h0]
      · simp only [bitlen, h0, if_false]
        have hj : 1 ≤ j := by
          by_contra hc
          have : j = 0 := by omega
          subst this
          simp at h
          omega
        have hdiv : n / 2 < 2 ^ (j - 1) := by
          have h2 : 2 ^ j = 2 * 2 ^ (j - 1) := by
            rw [← pow_succ']
            congr 1
            omega
          omega
        have := ih (j - 1) (n / 2) hdiv
        omega

/-! Facts about `wsub`, `cstrlen` and `cbytes`. -/

theorem wsub_small (a b : Nat) (hb : b ≤ a) (ha : a < 2 ^ 64) : wsub a b = a - b := by
  unfold wsub
  have h1 : a + 2 ^ 64 - b = (a - b) + 2 ^ 64 := by omega
  rw [h1, Nat.add_mod_right, Nat.mod_eq_of_lt (by omega)]

theorem takeWhile_eq_self (p : List Nat) (h : ∀ b ∈ p, b ≠ 0) :
    p.takeWhile (fun b => b != 0) = p := by
  rw [List.takeWhile_eq_self_iff]
  intro a ha
  simpa using h a ha

theorem takeWhile_eq_take (b : List Nat) (sz : Nat) (hlen : sz < b.length)
    (hnz : ∀ i, i < sz → b.getD i 0 ≠ 0) (hz : b.getD sz 0 = 0) :
    b.takeWhile (fun c => c != 0) = b.take sz := by
  induction b generalizing sz with
  | nil => simp at hlen
  | cons a t ih =>
    cases sz with
    | zero =>
        simp only [List.getD_cons_zero] at hz
        subst hz
        simp [List.takeWhile_cons]
    | succ sz =>
        have ha : a ≠ 0 := hnz 0 (by omega)
        have hlen2 : sz < t.length := by
          simp only [List.length_cons] at hlen
          omega
        have hrec := ih sz hlen2
          (fun i hi => hnz (i + 1) (by omega)) (by simpa using hz)
        simp only [List.takeWhile_cons, List.take_succ_cons]
        rw [if_pos (by simpa using ha), hrec]

theorem cstrlen_of_nonul (p : List Nat) (h : ∀ b ∈ p, b ≠ 0) :
    cstrlen p = p.length := by
  rw [cstrlen, takeWhile_eq_self p h]

theorem cbytes_of_nonul (p : List Nat) (h : ∀ b ∈ p, b ≠ 0) :
    cbytes p = p ++ [0] := by
  rw [cbytes, takeWhile_eq_self p h]

theorem cstrlen_buffer (b : List Nat) (sz : Nat) (hlen : sz < b.length)
    (hnz : ∀ i, i < sz → b.getD i 0 ≠ 0) (hz : b.getD sz 0 = 0) :
    cstrlen b = sz := by
  rw [cstrlen, takeWhile_eq_take b sz hlen hnz hz, List.length_take]
  omega

theorem cbytes_buffer (b : List Nat) (sz : Nat) (hlen : sz < b.length)
    (hnz : ∀ i, i < sz → b.getD i 0 ≠ 0) (hz : b.getD sz 0 = 0) :
    cbytes b = b.take sz ++ [0] := by
  rw [cbytes, takeWhile_eq_take b sz hlen hnz hz]

theorem bitlen_pos (f n : Nat) (h : n ≠ 0) (hf : f ≠ 0) : 1 ≤ bitlen f n := by
  cases f with
  | zero => omega
  | succ g => simp [bitlen, h]

/-! Facts about the memory primitives. -/

theorem find_updBuf (m : Mem) (a : Nat) (f : List Nat → List Nat) (q : Nat) :
    (m.updBuf a f).find q = if q = a then (m.find a).map f else m.find q := rfl

theorem find_write (m : Mem) (a i v q : Nat) :
    (m.write a i v).find q =
      if q = a then (m.find a).map (fun b => b.set i v) else m.find q := rfl

theorem find_free (m : Mem) (a q : Nat) :
    (m.free a).find q = if q = a then none else m.find q := rfl

theorem find_alloc (m : Mem) (n q : Nat) :
    (m.alloc n).2.find q =
      if q = m.next then some (List.replicate n 0) else m.find q := rfl

theorem next_updBuf (m : Mem) (a : Nat) (f : List Nat → List Nat) :
    (m.updBuf a f).next = m.next := rfl

theorem next_write (m : Mem) (a i v : Nat) : (m.write a i v).next = m.next := rfl

theorem next_free (m : Mem) (a : Nat) : (m.free a).next = m.next := rfl

theorem next_alloc (m : Mem) (n : Nat) : (m.alloc n).2.next = m.next + 1 := rfl

theorem read_def (m : Mem) (a i : Nat) :
    m.read a i = ((m.find a).getD []).getD i 0 := rfl

theorem memWF_lt_next (m : Mem) (hm : MemWF m) (a : Nat) (b : List Nat)
    (h : m.find a = some b) : a < m.next := by
  by_contra hc
  have := hm a (Nat.le_of_not_lt hc)
  rw [Mem.find] at h
  rw [this] at h
  exact Option.noConfusion h

theorem memWF_updBuf (m : Mem) (hm : MemWF m) (a : Nat)
    (f : List Nat → List Nat) : MemWF (m.updBuf a f) := by
  intro q hq
  have hq' : m.bufs q = none := hm q hq
  show (if q = a then (m.bufs a).map f else m.bufs q) = none
  by_cases h : q = a
  · subst h
    rw [if_pos rfl, hq']
    rfl
  · rw [if_neg h]
    exact hq'

theorem memWF_write (m : Mem) (hm : MemWF m) (a i v : Nat) :
    MemWF (m.write a i v) := memWF_updBuf m hm a _

theorem memWF_free (m : Mem) (hm : MemWF m) (a : Nat) : MemWF (m.free a) := by
  intro q hq
  have hq' : m.bufs q = none := hm q hq
  show (if q = a then none else m.bufs q) = none
  by_cases h : q = a
  · rw [if_pos h]
  · rw [if_neg h]
    exact hq'

theorem memWF_alloc (m : Mem) (hm : MemWF m) (n : Nat) :
    MemWF (m.alloc n).2 := by
  intro q hq
  have hnext : (m.alloc n).2.next = m.next + 1 := rfl
  have hq2 : m.next + 1 ≤ q := by rw [hnext] at hq; exact hq
  have hq' : m.bufs q = none := hm q (by omega)
  show (if q = m.next then some (List.replicate n 0) else m.bufs q) = none
  rw [if_neg (by omega)]
  exact hq'

theorem memWF_realloc (m : Mem) (hm : MemWF m) (a n : Nat) :
    MemWF (m.realloc a n) := memWF_updBuf m hm a _

/-! Specification of `xs_new`. -/

theorem rangeMap_eq_list (p : List Nat) (f : Nat → Nat)
    (h : ∀ i, i < p.length → f i = p.getD i 0) :
    (List.range p.length).map f = p := by
  apply List.ext_getElem (by simp)
  intro i h1 h2
  rw [List.getElem_map, List.getElem_range, h i h2, List.getD_eq_getElem _ _ h2]

theorem cbytes_length (p : List Nat) : (cbytes p).length = cstrlen p + 1 := by
  simp [cbytes, cstrlen]

theorem cbytes_getD_lt (p : List Nat) (i : Nat) (h : i < cstrlen p) :
    (cbytes p).getD i 0 = (p.takeWhile (fun c => c != 0)).getD i 0 := by
  rw [cstrlen] at h
  rw [cbytes, List.getD_append]
  exact h

theorem cbytes_getD_len (p : List Nat) :
    (cbytes p).getD (cstrlen p) 0 = 0 := by
  rw [cbytes, cstrlen, List.getD_append_right _ _ _ _ (Nat.le_refl _),
    Nat.sub_self]
  rfl

theorem xs_new_inline_spec (p : List Nat) (m : Mem) (hL : cstrlen p ≤ 15) :
    ∃ buf, xs_new p m = (.inl buf, m) ∧ buf.length = 16 ∧
      buf.getD 15 0 = 15 - cstrlen p ∧
      (∀ i, i < cstrlen p → buf.getD i 0 = (p.takeWhile (fun c => c != 0)).getD i 0) ∧
      buf.getD (cstrlen p) 0 = 0 := by
  have hcond : ¬ 16 < cstrlen p + 1 := by omega
  have hbase : (List.replicate 15 0 ++ [15] : List Nat).length = 16 := by simp
  have hw : wsub 15 (cstrlen p + 1 - 1) % 16 = 15 - cstrlen p := by
    rw [Nat.add_sub_cancel, wsub_small 15 (cstrlen p) hL (by norm_num)]
    exact Nat.mod_eq_of_lt (by omega)
  refine ⟨(listWriteBytes (List.replicate 15 0 ++ [15]) 0 (cbytes p)).set 15
    (wsub 15 (cstrlen p + 1 - 1) % 16), ?_, ?_, ?_, ?_, ?_⟩
  · simp only [xs_new]
    rw [if_neg hcond]
  · rw [length_set, listWriteBytes_length, hbase]
  · rw [hw, getD_set, if_pos ⟨rfl, by rw [listWriteBytes_length, hbase]; omega⟩]
  · intro i hi
    rw [getD_set, if_neg (by omega), listWriteBytes_getD,
      if_pos ⟨by omega, by rw [cbytes_length]; omega, by rw [hbase]; omega⟩]
    simpa using cbytes_getD_lt p i hi
  · by_cases h15 : cstrlen p = 15
    · rw [getD_set, if_pos ⟨by omega, by rw [listWriteBytes_length, hbase]; omega⟩,
        hw, h15]
    · rw [getD_set, if_neg (by omega), listWriteBytes_getD,
        if_pos ⟨by omega, by rw [cbytes_length]; omega, by rw [hbase]; omega⟩]
      simpa using cbytes_getD_len p

theorem xs_new_heap_spec (p : List Nat) (m : Mem) (hL : 16 ≤ cstrlen p)
    (h32 : cstrlen p + 1 < 2 ^ 32) :
    (xs_new p m).1 = .hp m.next (cstrlen p) (bitlen 64 (cstrlen p + 1)) ∧
      (xs_new p m).2.next = m.next + 1 ∧
      (∀ a, a ≠ m.next → (xs_new p m).2.find a = m.find a) ∧
      ∃ b, (xs_new p m).2.find m.next = some b ∧
        b.length = 2 ^ bitlen 64 (cstrlen p + 1) ∧
        (∀ i, i < cstrlen p →
          b.getD i 0 = (p.takeWhile (fun c => c != 0)).getD i 0) ∧
        b.getD (cstrlen p) 0 = 0 ∧ b.getD (cstrlen p + 1) 0 = 1 ∧
        cstrlen p + 2 ≤ 2 ^ bitlen 64 (cstrlen p + 1) ∧
        bitlen 64 (cstrlen p + 1) ≤ 32 := by
  have hcond : 16 < cstrlen p + 1 := by omega
  have h1 : (cstrlen p + 1) % 2 ^ 32 = cstrlen p + 1 := Nat.mod_eq_of_lt h32
  have h2 : 1 ≤ bitlen 64 (cstrlen p + 1) := bitlen_pos 64 _ (by omega) (by omega)
  have h3 : bitlen 64 (cstrlen p + 1) ≤ 32 := bitlen_le_of_lt_pow 64 32 _ h32
  have hcap : (ilog2 (cstrlen p + 1) + 1) % 2 ^ 6 = bitlen 64 (cstrlen p + 1) := by
    rw [ilog2, h1, Nat.sub_add_cancel h2]
    exact Nat.mod_eq_of_lt (by norm_num; omega)
  have h64 : cstrlen p + 1 < 2 ^ 64 := by
    have : (2 : Nat) ^ 32 ≤ 2 ^ 64 := by norm_num
    omega
  have hfit : cstrlen p + 2 ≤ 2 ^ bitlen 64 (cstrlen p + 1) := by
    have := bitlen_lt 64 (cstrlen p + 1) h64
    omega
  have h54 : (cstrlen p + 1 - 1) % 2 ^ 54 = cstrlen p := by
    rw [Nat.add_sub_cancel]
    have : (2 : Nat) ^ 32 ≤ 2 ^ 54 := by norm_num
    exact Nat.mod_eq_of_lt (by omega)
  have hrep : (List.replicate (2 ^ bitlen 64 (cstrlen p + 1)) 0 : List Nat).length
      = 2 ^ bitlen 64 (cstrlen p + 1) := by simp
  refine ⟨?_, ?_, ?_, ?_⟩
  · simp only [xs_new]
    rw [if_pos hcond, hcap, h54]
    rfl
  · simp only [xs_new]
    rw [if_pos hcond]
    rfl
  · intro a ha
    simp only [xs_new]
    rw [if_pos hcond]
    have halloc : (m.alloc (2 ^ ((ilog2 (cstrlen p + 1) + 1) % 2 ^ 6))).1 = m.next := rfl
    simp only [find_write, find_updBuf, find_alloc, halloc, if_neg ha]
  · refine ⟨(listWriteBytes (List.replicate (2 ^ bitlen 64 (cstrlen p + 1)) 0) 0
      (cbytes p)).set (cstrlen p + 1) 1, ?_, ?_, ?_, ?_, ?_, hfit, h3⟩
    · simp only [xs_new]
      rw [if_pos hcond]
      have halloc : ∀ n : Nat, (m.alloc n).1 = m.next := fun _ => rfl
      simp only [find_write, find_updBuf, find_alloc, halloc, hcap,
        Nat.add_sub_cancel, if_pos, Option.map_some]
      simp
    · rw [length_set, listWriteBytes_length, hrep]
    · intro i hi
      rw [getD_set, if_neg (by omega), listWriteBytes_getD,
        if_pos ⟨by omega, by rw [cbytes_length]; omega,
          by rw [hrep]; omega⟩]
      simpa using cbytes_getD_lt p i hi
    · rw [getD_set, if_neg (by omega), listWriteBytes_getD,
        if_pos ⟨by omega, by rw [cbytes_length]; omega, by rw [hrep]; omega⟩]
      simpa using cbytes_getD_len p
    · rw [getD_set, if_pos ⟨rfl, by rw [listWriteBytes_length, hrep]; omega⟩]

/-! Read-after-write lemmas. -/

theorem read_of_find_eq (m m2 : Mem) (q : Nat)
    (h : m2.find q = m.find q) (j : Nat) : m2.read q j = m.read q j := by
  rw [read_def, read_def, h]

theorem read_write_self (m : Mem) (a i v : Nat) (b : List Nat)
    (hf : m.find a = some b) (hi : i < b.length) :
    (m.write a i v).read a i = v := by
  rw [read_def, find_write, if_pos rfl, hf]
  show (b.set i v).getD i 0 = v
  rw [getD_set, if_pos ⟨rfl, hi⟩]

theorem read_write_ne_addr (m : Mem) (a i v q j : Nat) (h : q ≠ a) :
    (m.write a i v).read q j = m.read q j := by
  rw [read_def, find_write, if_neg h, read_def]

theorem read_write_ne_idx (m : Mem) (a i v j : Nat) (h : j ≠ i) :
    (m.write a i v).read a j = m.read a j := by
  rw [read_def, find_write, if_pos rfl, read_def]
  cases hf : m.find a with
  | none => rfl
  | some b =>
      show (b.set i v).getD j 0 = b.getD j 0
      rw [getD_set, if_neg (by omega)]

theorem read_free_ne (m : Mem) (a q j : Nat) (h : q ≠ a) :
    (m.free a).read q j = m.read q j := by
  rw [read_def, find_free, if_neg h, read_def]

theorem heapWF_elim (m : Mem) (p sz cap : Nat) (h : heapWF m p sz cap) :
    ∃ b, m.find p = some b ∧ b.length = 2 ^ cap ∧ cap ≤ 54 ∧
      sz + 2 ≤ 2 ^ cap ∧ b.getD sz 0 = 0 ∧ (∀ i, i < sz → b.getD i 0 ≠ 0) ∧
      1 ≤ b.getD (sz + 1) 0 ∧ b.getD (sz + 1) 0 ≤ 255 := by
  unfold heapWF at h
  cases hf : m.find p with
  | none => rw [hf] at h; exact absurd h (by simp)
  | some b =>
      rw [hf] at h
      exact ⟨b, rfl, h.1, h.2.1, h.2.2.1, h.2.2.2.1, h.2.2.2.2.1,
        h.2.2.2.2.2.1, h.2.2.2.2.2.2⟩

theorem refcnt_eq_read (m : Mem) (p sz cap : Nat) :
    refcnt m (.hp p sz cap) = m.read p (sz + 1) := rfl

theorem getD_take (b : List Nat) (sz i : Nat) (h : i < sz) (h2 : sz ≤ b.length) :
    (b.take sz).getD i 0 = b.getD i 0 := by
  rw [List.getD_eq_getElem _ _ (by rw [List.length_take]; omega),
    List.getD_eq_getElem _ _ (by omega)]
  exact List.getElem_take _

/-! The release-of-dest step at the top of `xs_copy` equals the memory
`xs_copy` leaves behind when the source is inline; these lemmas let the
two `xs_copy` branches share one analysis of that step. -/

theorem xs_copy_via_destStep (dest : Xs) (p sz cap : Nat) (m : Mem) :
    xs_copy dest (.hp p sz cap) m =
      (if (xs_copy dest (.inl []) m).2.read p (sz + 1) == 255 then
        xs_new (((xs_copy dest (.inl []) m).2.find p).getD [])
          (xs_copy dest (.inl []) m).2
      else (.hp p sz cap, (xs_copy dest (.inl []) m).2.write p (sz + 1)
        (((xs_copy dest (.inl []) m).2.read p (sz + 1) + 1) % 256))) := by
  cases dest <;> rfl

theorem destStep_find_ne (dest : Xs) (m : Mem) (p : Nat)
    (hd : ∀ q dsz dcap, dest = .hp q dsz dcap → q ≠ p) :
    (xs_copy dest (.inl []) m).2.find p = m.find p := by
  cases dest with
  | inl buf => rfl
  | hp q dsz dcap =>
      have hqp : q ≠ p := hd q dsz dcap rfl
      show (if (m.write q (dsz + 1) ((m.read q (dsz + 1) + 255) % 256)).read
          q (dsz + 1) == 0 then
            (m.write q (dsz + 1) ((m.read q (dsz + 1) + 255) % 256)).free q
          else m.write q (dsz + 1) ((m.read q (dsz + 1) + 255) % 256)).find p
        = m.find p
      by_cases hz : ((m.write q (dsz + 1)
          ((m.read q (dsz + 1) + 255) % 256)).read q (dsz + 1) == 0) = true
      · rw [if_pos hz, find_free, if_neg (Ne.symm hqp), find_write,
          if_neg (Ne.symm hqp)]
      · rw [if_neg hz, find_write, if_neg (Ne.symm hqp)]

theorem destStep_next (dest : Xs) (m : Mem) :
    (xs_copy dest (.inl []) m).2.next = m.next := by
  cases dest with
  | inl buf => rfl
  | hp q dsz dcap =>
      show (if (m.write q (dsz + 1) ((m.read q (dsz + 1) + 255) % 256)).read
          q (dsz + 1) == 0 then
            (m.write q (dsz + 1) ((m.read q (dsz + 1) + 255) % 256)).free q
          else m.write q (dsz + 1) ((m.read q (dsz + 1) + 255) % 256)).next
        = m.next
      by_cases hz : ((m.write q (dsz + 1)
          ((m.read q (dsz + 1) + 255) % 256)).read q (dsz + 1) == 0) = true
      · rw [if_pos hz]
        rfl
      · rw [if_neg hz]
        rfl

theorem destStep_memWF (dest : Xs) (m : Mem) (hm : MemWF m) :
    MemWF (xs_copy dest (.inl []) m).2 := by
  cases dest with
  | inl buf => exact hm
  | hp q dsz dcap =>
      show MemWF (if (m.write q (dsz + 1)
          ((m.read q (dsz + 1) + 255) % 256)).read q (dsz + 1) == 0 then
            (m.write q (dsz + 1) ((m.read q (dsz + 1) + 255) % 256)).free q
          else m.write q (dsz + 1) ((m.read q (dsz + 1) + 255) % 256))
      by_cases hz : ((m.write q (dsz + 1)
          ((m.read q (dsz + 1) + 255) % 256)).read q (dsz + 1) == 0) = true
      · rw [if_pos hz]
        exact memWF_free _ (memWF_write _ hm _ _ _) _
      · rw [if_neg hz]
        exact memWF_write _ hm _ _ _

theorem take_set_of_le (b : List Nat) (j v sz : Nat) (h : sz ≤ j) :
    (b.set j v).take sz = b.take sz := by
  apply List.ext_getElem (by simp)
  intro i h1 h2
  have hi : i < sz := by
    rw [List.length_take] at h2
    omega
  rw [List.getElem_take _, List.getElem_take _, List.getElem_set_ne (by omega)]

theorem memWF_of_find (m m2 : Mem) (hm : MemWF m) (hnext : m.next ≤ m2.next)
    (hoth : ∀ a, m2.next ≤ a → m2.find a = m.find a) : MemWF m2 := by
  intro a ha
  have h1 : m2.bufs a = m.bufs a := hoth a ha
  rw [h1]
  exact hm a (by omega)

/-! Specification of `xs_new` applied to the contents of a well-formed
buffer (the `xs_tmp(ptr)` duplication pattern used by `xs_cow` and by
`xs_copy`'s saturation branch): the result is a fresh, exclusively owned,
well-formed string with the buffer's first `sz` bytes. -/

theorem xs_new_buffer_spec (m1 : Mem) (b1 : List Nat) (sz : Nat)
    (hm : MemWF m1) (hlen : sz < b1.length)
    (hnz : ∀ i, i < sz → b1.getD i 0 ≠ 0) (hterm : b1.getD sz 0 = 0)
    (h32 : sz + 1 < 2 ^ 32) :
    xs_size (xs_new b1 m1).1 = sz ∧
      dataBytes (xs_new b1 m1).2 (xs_new b1 m1).1 = b1.take sz ∧
      (∀ q2 sz2 cap2, (xs_new b1 m1).1 = .hp q2 sz2 cap2 →
        q2 = m1.next ∧ sz2 = sz ∧ (xs_new b1 m1).2.read q2 (sz2 + 1) = 1) ∧
      (∀ a, a ≠ m1.next → (xs_new b1 m1).2.find a = m1.find a) ∧
      m1.next ≤ (xs_new b1 m1).2.next ∧
      (xs_new b1 m1).2.next ≤ m1.next + 1 ∧
      XsWF (xs_new b1 m1).2 (xs_new b1 m1).1 ∧ MemWF (xs_new b1 m1).2 := by
  have hcs : cstrlen b1 = sz := cstrlen_buffer b1 sz hlen hnz hterm
  have htake : b1.takeWhile (fun c => c != 0) = b1.take sz :=
    takeWhile_eq_take b1 sz hlen hnz hterm
  have htlen : (b1.take sz).length = sz := by rw [List.length_take]; omega
  have htwnz : ∀ i, i < sz → (b1.takeWhile (fun c => c != 0)).getD i 0 ≠ 0 := by
    intro i hi
    rw [htake, getD_take b1 sz i hi (by omega)]
    exact hnz i hi
  by_cases hsz15 : sz ≤ 15
  · obtain ⟨buf, hbuf, hblen2, hb15, hdata2, hterm2⟩ :=
      xs_new_inline_spec b1 m1 (by omega)
    rw [hcs] at hb15 hdata2 hterm2
    have hxs : xs_size (xs_new b1 m1).1 = sz := by
      rw [hbuf]
      show 15 - buf.getD 15 0 = sz
      rw [hb15]
      omega
    refine ⟨hxs, ?_, ?_, ?_, ?_, ?_, ?_, ?_⟩
    · rw [dataBytes, hxs, hbuf]
      have := rangeMap_eq_list (b1.take sz) (readData m1 (.inl buf)) ?_
      · rw [htlen] at this
        exact this
      · intro i hi
        rw [htlen] at hi
        show buf.getD i 0 = (b1.take sz).getD i 0
        rw [hdata2 i hi, htake]
    · intro q2 sz2 cap2 heq
      rw [hbuf] at heq
      exact Xs.noConfusion heq
    · intro a _
      rw [hbuf]
    · rw [hbuf]
    · rw [hbuf]
      exact Nat.le_succ _
    · rw [hbuf]
      show XsWF m1 (.inl buf)
      show buf.length = 16 ∧ buf.getD 15 0 ≤ 15 ∧
        buf.getD (15 - buf.getD 15 0) 0 = 0 ∧
        ∀ i, i < 15 - buf.getD 15 0 → buf.getD i 0 ≠ 0
      refine ⟨hblen2, by rw [hb15]; omega, ?_, ?_⟩
      · rw [hb15]
        have h1 : 15 - (15 - sz) = sz := by omega
        rw [h1]
        exact hterm2
      · intro i hi
        rw [hb15] at hi
        have hi2 : i < sz := by omega
        rw [hdata2 i hi2]
        exact htwnz i hi2
    · rw [hbuf]
      exact hm
  · obtain ⟨hrep, hnext, hoth, bn, hfind, hlen2, hdata2, hterm2, href, hfit2, hb32⟩ :=
      xs_new_heap_spec b1 m1 (by omega) (by omega)
    rw [hcs] at hrep hdata2 hterm2 href hfit2 hlen2 hb32
    have hxs : xs_size (xs_new b1 m1).1 = sz := by rw [hrep]; rfl
    refine ⟨hxs, ?_, ?_, hoth, by omega, by omega, ?_, ?_⟩
    · rw [dataBytes, hxs, hrep]
      have := rangeMap_eq_list (b1.take sz)
        (readData (xs_new b1 m1).2 (.hp m1.next sz (bitlen 64 (sz + 1)))) ?_
      · rw [htlen] at this
        exact this
      · intro i hi
        rw [htlen] at hi
        show (xs_new b1 m1).2.read m1.next i = (b1.take sz).getD i 0
        rw [read_def, hfind]
        show bn.getD i 0 = (b1.take sz).getD i 0
        rw [hdata2 i hi, htake]
    · intro q2 sz2 cap2 heq
      rw [hrep] at heq
      cases heq
      refine ⟨rfl, rfl, ?_⟩
      rw [read_def, hfind]
      exact href
    · rw [hrep]
      show heapWF (xs_new b1 m1).2 m1.next sz (bitlen 64 (sz + 1))
      unfold heapWF
      rw [hfind]
      refine ⟨hlen2, by omega, hfit2, hterm2, ?_, ?_, ?_⟩
      · intro i hi
        rw [hdata2 i hi]
        exact htwnz i hi
      · rw [href]
      · rw [href]
        omega
    · exact memWF_of_find m1 (xs_new b1 m1).2 hm (by omega)
        (fun a ha => hoth a (by omega))

/-! Specification of `xs_cow` on a well-formed heap string: the shared
count on the old buffer is decremented (mod 256), the old payload is
untouched, and the value is replaced by a fresh, exclusively owned,
well-formed copy of the same bytes. -/

theorem xs_cow_spec (m : Mem) (p sz cap : Nat) (hm : MemWF m)
    (hs : heapWF m p sz cap) (h32 : sz + 1 < 2 ^ 32) :
    xs_size (xs_cow (.hp p sz cap) m).1 = sz ∧
      dataBytes (xs_cow (.hp p sz cap) m).2 (xs_cow (.hp p sz cap) m).1 =
        dataBytes m (.hp p sz cap) ∧
      (xs_cow (.hp p sz cap) m).2.read p (sz + 1) =
        (m.read p (sz + 1) + 255) % 256 ∧
      (∀ i, i ≠ sz + 1 → (xs_cow (.hp p sz cap) m).2.read p i = m.read p i) ∧
      (∀ q2 sz2 cap2, (xs_cow (.hp p sz cap) m).1 = .hp q2 sz2 cap2 →
        q2 = m.next ∧ sz2 = sz ∧
          (xs_cow (.hp p sz cap) m).2.read q2 (sz2 + 1) = 1 ∧ q2 ≠ p) ∧
      (∀ a, a ≠ p → a ≠ m.next → (xs_cow (.hp p sz cap) m).2.find a = m.find a) ∧
      m.next ≤ (xs_cow (.hp p sz cap) m).2.next ∧
      (xs_cow (.hp p sz cap) m).2.next ≤ m.next + 1 ∧
      XsWF (xs_cow (.hp p sz cap) m).2 (xs_cow (.hp p sz cap) m).1 ∧
      MemWF (xs_cow (.hp p sz cap) m).2 := by
  obtain ⟨b, hfb, hblen, hcap54, hfit, hterm, hnz, hr1, hr255⟩ :=
    heapWF_elim m p sz cap hs
  have hlt : p < m.next := memWF_lt_next m hm p b hfb
  have hcow : xs_cow (.hp p sz cap) m =
      xs_new (((m.write p (sz + 1) ((m.read p (sz + 1) + 255) % 256)).find p).getD [])
        (m.write p (sz + 1) ((m.read p (sz + 1) + 255) % 256)) := rfl
  have hfdec : (m.write p (sz + 1) ((m.read p (sz + 1) + 255) % 256)).find p =
      some (b.set (sz + 1) ((m.read p (sz + 1) + 255) % 256)) := by
    rw [find_write, if_pos rfl, hfb]
    rfl
  have hbdec_len : (b.set (sz + 1) ((m.read p (sz + 1) + 255) % 256)).length =
      b.length := length_set b _ _
  have hbdec_ne : ∀ i, i ≠ sz + 1 →
      (b.set (sz + 1) ((m.read p (sz + 1) + 255) % 256)).getD i 0 = b.getD i 0 := by
    intro i hi
    rw [getD_set, if_neg (by omega)]
  have hmw : MemWF (m.write p (sz + 1) ((m.read p (sz + 1) + 255) % 256)) :=
    memWF_write m hm p _ _
  have hnw : (m.write p (sz + 1) ((m.read p (sz + 1) + 255) % 256)).next = m.next :=
    rfl
  obtain ⟨cxs, cdata, chp, coth, cn1, cn2, cwf, cmw⟩ :=
    xs_new_buffer_spec (m.write p (sz + 1) ((m.read p (sz + 1) + 255) % 256))
      (b.set (sz + 1) ((m.read p (sz + 1) + 255) % 256)) sz hmw
      (by rw [hbdec_len]; omega)
      (fun i hi => by rw [hbdec_ne i (by omega)]; exact hnz i hi)
      (by rw [hbdec_ne sz (by omega)]; exact hterm) h32
  have harg : ((m.write p (sz + 1) ((m.read p (sz + 1) + 255) % 256)).find p).getD []
      = b.set (sz + 1) ((m.read p (sz + 1) + 255) % 256) := by
    rw [hfdec]
    rfl
  rw [← harg] at cxs cdata chp coth cn1 cn2 cwf cmw
  rw [← hcow] at cxs cdata chp coth cn1 cn2 cwf cmw
  have hsrc : dataBytes m (.hp p sz cap) = b.take sz := by
    rw [dataBytes]
    show (List.range sz).map (readData m (.hp p sz cap)) = b.take sz
    have htlen : (b.take sz).length = sz := by rw [List.length_take]; omega
    have := rangeMap_eq_list (b.take sz) (readData m (.hp p sz cap)) ?_
    · rw [htlen] at this
      exact this
    · intro i hi
      rw [htlen] at hi
      show m.read p i = (b.take sz).getD i 0
      rw [read_def, hfb, getD_take b sz i hi (by omega)]
      rfl
  have hfinp : (xs_cow (.hp p sz cap) m).2.find p =
      some (b.set (sz + 1) ((m.read p (sz + 1) + 255) % 256)) := by
    have := coth p (by omega)
    rw [this, hfdec]
  refine ⟨cxs, ?_, ?_, ?_, ?_, ?_, cn1, cn2, cwf, cmw⟩
  · rw [cdata, harg, hsrc, take_set_of_le b (sz + 1) _ sz (by omega)]
  · rw [read_def, hfinp]
    show (b.set (sz + 1) ((m.read p (sz + 1) + 255) % 256)).getD (sz + 1) 0 = _
    rw [getD_set, if_pos ⟨rfl, by omega⟩]
  · intro i hi
    rw [read_def, hfinp]
    show (b.set (sz + 1) ((m.read p (sz + 1) + 255) % 256)).getD i 0 = m.read p i
    rw [hbdec_ne i hi, read_def, hfb]
    rfl
  · intro q2 sz2 cap2 heq
    obtain ⟨h1, h2, h3⟩ := chp q2 sz2 cap2 heq
    rw [hnw] at h1
    exact ⟨h1, h2, h3, by omega⟩
  · intro a hap han
    have := coth a (by rw [hnw]; exact han)
    rw [this, find_write, if_neg hap]

/-! Frame lemmas: each primitive store through an `Xs` value only touches
that value's own buffer, and the allocator only touches fresh addresses;
the per-operation frame lemmas below chain these. -/

theorem memcpyX_find_ne (x : Xs) (m : Mem) (off : Nat) (bs : List Nat) (a : Nat)
    (hx : ptrNe x a) : (memcpyX x m off bs).2.find a = m.find a := by
  cases x with
  | inl buf => rfl
  | hp p sz cap =>
      show (m.updBuf p _).find a = m.find a
      rw [find_updBuf, if_neg (Ne.symm (hx p sz cap rfl))]

theorem memmoveX_find_ne (x : Xs) (m : Mem) (d s n a : Nat)
    (hx : ptrNe x a) : (memmoveX x m d s n).2.find a = m.find a := by
  cases x with
  | inl buf => rfl
  | hp p sz cap =>
      show (m.updBuf p _).find a = m.find a
      rw [find_updBuf, if_neg (Ne.symm (hx p sz cap rfl))]

theorem writeX_find_ne (x : Xs) (m : Mem) (i v a : Nat)
    (hx : ptrNe x a) : (writeX x m i v).2.find a = m.find a := by
  cases x with
  | inl buf => rfl
  | hp p sz cap =>
      show (m.write p i v).find a = m.find a
      rw [find_write, if_neg (Ne.symm (hx p sz cap rfl))]

theorem setRef1_find_ne (x : Xs) (m : Mem) (a : Nat)
    (hx : ptrNe x a) : (setRef1 x m).find a = m.find a := by
  cases x with
  | inl buf => rfl
  | hp p sz cap =>
      show (m.write p (sz + 1) 1).find a = m.find a
      rw [find_write, if_neg (Ne.symm (hx p sz cap rfl))]

theorem xs_free_find_ne (x : Xs) (m : Mem) (a : Nat)
    (hx : ptrNe x a) : (xs_free x m).2.find a = m.find a := by
  cases x with
  | inl buf => rfl
  | hp p sz cap =>
      show (m.free p).find a = m.find a
      rw [find_free, if_neg (Ne.symm (hx p sz cap rfl))]

theorem ptrNe_memcpyX (x : Xs) (m : Mem) (off : Nat) (bs : List Nat) (a : Nat)
    (hx : ptrNe x a) : ptrNe (memcpyX x m off bs).1 a := by
  cases x with
  | inl buf => intro p sz cap h; exact Xs.noConfusion h
  | hp p sz cap => exact hx

theorem ptrNe_memmoveX (x : Xs) (m : Mem) (d s n a : Nat)
    (hx : ptrNe x a) : ptrNe (memmoveX x m d s n).1 a := by
  cases x with
  | inl buf => intro p sz cap h; exact Xs.noConfusion h
  | hp p sz cap => exact hx

theorem ptrNe_writeX (x : Xs) (m : Mem) (i v a : Nat)
    (hx : ptrNe x a) : ptrNe (writeX x m i v).1 a := by
  cases x with
  | inl buf => intro p sz cap h; exact Xs.noConfusion h
  | hp p sz cap => exact hx

theorem ptrNe_setSize (x : Xs) (n a : Nat)
    (hx : ptrNe x a) : ptrNe (setSize x n) a := by
  cases x with
  | inl buf => intro p sz cap h; exact Xs.noConfusion h
  | hp p sz cap =>
      intro p2 sz2 cap2 h
      cases h
      exact hx p sz cap rfl

theorem memcpyX_next (x : Xs) (m : Mem) (off : Nat) (bs : List Nat) :
    (memcpyX x m off bs).2.next = m.next := by
  cases x <;> rfl

theorem memmoveX_next (x : Xs) (m : Mem) (d s n : Nat) :
    (memmoveX x m d s n).2.next = m.next := by
  cases x <;> rfl

theorem writeX_next (x : Xs) (m : Mem) (i v : Nat) :
    (writeX x m i v).2.next = m.next := by
  cases x <;> rfl

theorem setRef1_next (x : Xs) (m : Mem) : (setRef1 x m).next = m.next := by
  cases x <;> rfl

theorem xs_free_next (x : Xs) (m : Mem) : (xs_free x m).2.next = m.next := by
  cases x <;> rfl

theorem xs_grow_empty_find_ne (n : Nat) (m : Mem) (a : Nat) (ha : a ≠ m.next) :
    (xs_grow xs_literal_empty n m).2.find a = m.find a := by
  unfold xs_grow
  by_cases h : n ≤ xs_capacity xs_literal_empty
  · rw [if_pos h]
  · rw [if_neg h]
    show ((m.alloc _).2.updBuf (m.alloc _).1 _).find a = m.find a
    have halloc : ∀ k : Nat, (m.alloc k).1 = m.next := fun _ => rfl
    rw [find_updBuf, halloc, if_neg ha, find_alloc, if_neg ha]

theorem xs_grow_empty_ptrNe (n : Nat) (m : Mem) (a : Nat) (ha : a ≠ m.next) :
    ptrNe (xs_grow xs_literal_empty n m).1 a := by
  unfold xs_grow
  by_cases h : n ≤ xs_capacity xs_literal_empty
  · rw [if_pos h]
    intro p sz cap heq
    exact Xs.noConfusion heq
  · rw [if_neg h]
    intro p sz cap heq
    have heq2 : Xs.hp (m.alloc (2 ^ ((ilog2 n + 1) % 2 ^ 6))).1
        (inlineSizeBits (List.replicate 15 0 ++ [15]))
        ((ilog2 n + 1) % 2 ^ 6) = .hp p sz cap := heq
    cases heq2
    exact fun hc => ha hc.symm

theorem xs_grow_empty_next (n : Nat) (m : Mem) :
    m.next ≤ (xs_grow xs_literal_empty n m).2.next ∧
      (xs_grow xs_literal_empty n m).2.next ≤ m.next + 1 := by
  unfold xs_grow
  by_cases h : n ≤ xs_capacity xs_literal_empty
  · rw [if_pos h]
    exact ⟨Nat.le_refl _, Nat.le_succ _⟩
  · rw [if_neg h]
    exact ⟨Nat.le_succ _, Nat.le_refl _⟩

theorem xs_new_find_ne (p : List Nat) (m : Mem) (a : Nat) (ha : a ≠ m.next) :
    (xs_new p m).2.find a = m.find a := by
  unfold xs_new
  simp only []
  by_cases h : 16 < cstrlen p + 1
  · rw [if_pos h]
    have halloc : ∀ k : Nat, (m.alloc k).1 = m.next := fun _ => rfl
    simp only [find_write, find_updBuf, find_alloc, halloc, if_neg ha]
  · rw [if_neg h]

theorem xs_new_next_le (p : List Nat) (m : Mem) :
    m.next ≤ (xs_new p m).2.next ∧ (xs_new p m).2.next ≤ m.next + 1 := by
  unfold xs_new
  simp only []
  by_cases h : 16 < cstrlen p + 1
  · rw [if_pos h]
    exact ⟨Nat.le_succ _, Nat.le_refl _⟩
  · rw [if_neg h]
    exact ⟨Nat.le_refl _, Nat.le_succ _⟩

/-- After the copy-on-write check, `xs_concat`'s body touches only the
string's own buffer, fresh allocations, and the buffer it frees — all
distinct from any other live address `a`. -/
theorem xs_concat_core_frame (x prefx sufx : Xs) (m : Mem) (a : Nat)
    (ha : a ≠ m.next) (hx : ptrNe x a) :
    (xs_concat_core x prefx sufx m).2.find a = m.find a := by
  unfold xs_concat_core
  simp only []
  split
  · rw [setRef1_find_ne _ _ a (ptrNe_setSize _ _ a (ptrNe_memcpyX _ _ _ _ a
      (ptrNe_memcpyX _ _ _ _ a (ptrNe_memmoveX _ _ _ _ _ a hx)))),
      memcpyX_find_ne _ _ _ _ a (ptrNe_memcpyX _ _ _ _ a
        (ptrNe_memmoveX _ _ _ _ _ a hx)),
      memcpyX_find_ne _ _ _ _ a (ptrNe_memmoveX _ _ _ _ _ a hx),
      memmoveX_find_ne _ _ _ _ _ a hx]
  · rw [setRef1_find_ne _ _ a (ptrNe_setSize _ _ a (ptrNe_memcpyX _ _ _ _ a
      (ptrNe_memcpyX _ _ _ _ a (ptrNe_memcpyX _ _ _ _ a
        (xs_grow_empty_ptrNe _ m a ha))))),
      xs_free_find_ne x _ a hx,
      memcpyX_find_ne _ _ _ _ a (ptrNe_memcpyX _ _ _ _ a (ptrNe_memcpyX _ _ _ _ a
        (xs_grow_empty_ptrNe _ m a ha))),
      memcpyX_find_ne _ _ _ _ a (ptrNe_memcpyX _ _ _ _ a
        (xs_grow_empty_ptrNe _ m a ha)),
      memcpyX_find_ne _ _ _ _ a (xs_grow_empty_ptrNe _ m a ha),
      xs_grow_empty_find_ne _ m a ha]

/-- After the copy-on-write check, `xs_trim`'s body writes only through
the string's own data pointer. -/
theorem xs_trim_core_frame (x : Xs) (ts : List Nat) (m : Mem) (a : Nat)
    (hx : ptrNe x a) :
    (xs_trim_core x ts m).2.find a = m.find a := by
  unfold xs_trim_core
  simp only []
  split
  · rw [setRef1_find_ne _ _ a (ptrNe_setSize _ _ a (ptrNe_writeX _ _ _ _ a
      (ptrNe_memmoveX _ _ _ _ _ a hx))),
      writeX_find_ne _ _ _ _ a (ptrNe_memmoveX _ _ _ _ _ a hx),
      memmoveX_find_ne _ _ _ _ _ a hx]
  · rw [setRef1_find_ne _ _ a (ptrNe_setSize _ _ a
      (ptrNe_memmoveX _ _ _ _ _ a hx)),
      memmoveX_find_ne _ _ _ _ _ a hx]

/-- After the NULL handling, empty-delimiter return and copy-on-write
check, and with a NULL retained remainder, `xs_tok`'s body writes only
through the string's own data pointer and fresh allocations. -/
theorem xs_tok_core_frame (x : Xs) (dl : List Nat) (m : Mem) (a : Nat)
    (ha : a ≠ m.next) (hx : ptrNe x a) :
    (xs_tok_core x dl none m).2.2.find a = m.find a := by
  unfold xs_tok_core
  simp only []
  split
  · rw [setRef1_find_ne _ _ a (ptrNe_setSize _ _ a (ptrNe_writeX _ _ _ _ a
      (ptrNe_memmoveX _ _ _ _ _ a hx))),
      writeX_find_ne _ _ _ _ a (ptrNe_memmoveX _ _ _ _ _ a hx),
      memmoveX_find_ne _ _ _ _ _ a hx]
  · split
    · rw [setRef1_find_ne _ _ a (ptrNe_setSize _ _ a (ptrNe_writeX _ _ _ _ a
        (ptrNe_memmoveX _ _ _ _ _ a hx))),
        writeX_find_ne _ _ _ _ a (ptrNe_memmoveX _ _ _ _ _ a hx),
        memmoveX_find_ne _ _ _ _ _ a hx]
    · rw [setRef1_find_ne _ _ a (ptrNe_setSize _ _ a (ptrNe_writeX _ _ _ _ a
        (ptrNe_setSize _ _ a (ptrNe_writeX _ _ _ _ a
          (ptrNe_memmoveX _ _ _ _ _ a hx))))),
        xs_new_find_ne _ _ a (by rw [writeX_next, writeX_next, memmoveX_next]; exact ha),
        writeX_find_ne _ _ _ _ a (ptrNe_setSize _ _ a (ptrNe_writeX _ _ _ _ a
          (ptrNe_memmoveX _ _ _ _ _ a hx))),
        writeX_find_ne _ _ _ _ a (ptrNe_memmoveX _ _ _ _ _ a hx),
        memmoveX_find_ne _ _ _ _ _ a hx]

theorem rangeMap_congr (f g : Nat → Nat) (n : Nat) (h : ∀ i, i < n → f i = g i) :
    (List.range n).map f = (List.range n).map g := by
  apply List.ext_getElem (by simp)
  intro i h1 h2
  simp only [List.getElem_map, List.getElem_range]
  exact h i (by simpa using h1)

/-- Concatenating the empty literal on both sides stays in place and
preserves the size and the payload bytes of any well-formed string. -/
theorem xs_concat_core_empty_id (x : Xs) (m : Mem) (hx : XsWF m x) :
    xs_size (xs_concat_core x xs_literal_empty xs_literal_empty m).1 =
        xs_size x ∧
      dataBytes (xs_concat_core x xs_literal_empty xs_literal_empty m).2
          (xs_concat_core x xs_literal_empty xs_literal_empty m).1 =
        dataBytes m x := by
  have h0 : xs_size xs_literal_empty = 0 := rfl
  have hrb0 : ∀ m2 : Mem, readBytesX m2 xs_literal_empty 0 0 = [] :=
    fun m2 => rfl
  have hrb1 : ∀ m2 : Mem, readBytesX m2 xs_literal_empty 0 1 = [0] :=
    fun m2 => rfl
  cases x with
  | inl buf =>
      obtain ⟨hlen, hsl, hterm, hnz⟩ := hx
      have hsz : xs_size (.inl buf) = 15 - buf.getD 15 0 := rfl
      have hcap : xs_capacity (.inl buf) = 15 := rfl
      have hbr : 15 - buf.getD 15 0 ≤ 15 := by omega
      unfold xs_concat_core
      simp only [h0, Nat.add_zero, Nat.zero_add, hsz, hcap]
      rw [if_pos hbr]
      simp only [memmoveX, memcpyX, setSize, setRef1, hrb0, hrb1]
      set S := 15 - buf.getD 15 0 with hSdef
      have hS15 : S ≤ 15 := by omega
      have hmv_len : (listMove buf 0 0 S).length = 16 := by
        rw [listMove_length, hlen]
      have hlw_len : (listWriteBytes (listMove buf 0 0 S) 0 []).length = 16 := by
        rw [listWriteBytes_length, hmv_len]
      have hset_len :
          (listWriteBytes (listWriteBytes (listMove buf 0 0 S) 0 []) S
            [0]).length = 16 := by
        rw [listWriteBytes_length, hlw_len]
      have hmv : ∀ i, i < 16 → (listMove buf 0 0 S).getD i 0 = buf.getD i 0 := by
        intro i hi
        rw [listMove_getD, if_pos (by omega)]
        by_cases h : 0 ≤ i ∧ i < 0 + S
        · rw [if_pos h]
          congr 1
          omega
        · rw [if_neg h]
      have hlw : ∀ i, (listWriteBytes (listMove buf 0 0 S) 0 []).getD i 0 =
          (listMove buf 0 0 S).getD i 0 := fun i => rfl
      have hset : ∀ i, i < S →
          (listWriteBytes (listWriteBytes (listMove buf 0 0 S) 0 []) S
            [0]).getD i 0 = buf.getD i 0 := by
        intro i hi
        rw [listWriteBytes_getD, if_neg (by simp; omega), hlw, hmv i (by omega)]
      have hw : wsub 15 S % 16 = 15 - S := by
        rw [wsub_small 15 S hS15 (by norm_num)]
        exact Nat.mod_eq_of_lt (by omega)
      have hfin : ((listWriteBytes (listWriteBytes (listMove buf 0 0 S) 0 []) S
          [0]).set 15 (wsub 15 S % 16)).getD 15 0 = 15 - S := by
        rw [hw, getD_set, if_pos ⟨rfl, by rw [hset_len]; omega⟩]
      have hsz2 : xs_size (.inl ((listWriteBytes (listWriteBytes
          (listMove buf 0 0 S) 0 []) S [0]).set 15 (wsub 15 S % 16))) = S := by
        show 15 - _ = S
        rw [hfin]
        omega
      refine ⟨hsz2, ?_⟩
      rw [dataBytes, dataBytes, hsz2, hsz]
      apply rangeMap_congr
      intro i hi
      show ((listWriteBytes (listWriteBytes (listMove buf 0 0 S) 0 []) S
          [0]).set 15 (wsub 15 S % 16)).getD i 0 = buf.getD i 0
      rw [getD_set, if_neg (by omega), hset i hi]
  | hp p sz cap =>
      obtain ⟨b, hfb, hblen, hcap54, hfit, hterm, hnz, hr1, hr255⟩ :=
        heapWF_elim m p sz cap hx
      have hsz : xs_size (.hp p sz cap) = sz := rfl
      have hcapv : xs_capacity (.hp p sz cap) = 2 ^ cap - 1 := rfl
      have hbr : sz ≤ 2 ^ cap - 1 := by omega
      unfold xs_concat_core
      simp only [h0, Nat.add_zero, Nat.zero_add, hsz, hcapv]
      rw [if_pos hbr]
      simp only [memmoveX, memcpyX, setSize, setRef1, hrb0, hrb1]
      have hszmod : sz % 2 ^ 54 = sz := by
        have hpow : (2 : Nat) ^ cap ≤ 2 ^ 54 := Nat.pow_le_pow_right (by omega) hcap54
        exact Nat.mod_eq_of_lt (by omega)
      simp only [hszmod]
      have hfind : ((((m.updBuf p fun b2 => listMove b2 0 0 sz).updBuf p
          fun b2 => listWriteBytes b2 0 []).updBuf p
          fun b2 => listWriteBytes b2 sz [0]).write p (sz + 1) 1).find p =
          some ((listWriteBytes (listWriteBytes (listMove b 0 0 sz) 0 []) sz
            [0]).set (sz + 1) 1) := by
        rw [find_write, if_pos rfl, find_updBuf, if_pos rfl, find_updBuf,
          if_pos rfl, find_updBuf, if_pos rfl, hfb]
        rfl
      have hmv : ∀ i, i < 2 ^ cap → (listMove b 0 0 sz).getD i 0 = b.getD i 0 := by
        intro i hi
        rw [listMove_getD, if_pos (by omega)]
        by_cases h : 0 ≤ i ∧ i < 0 + sz
        · rw [if_pos h]
          congr 1
          omega
        · rw [if_neg h]
      have hB : ∀ i, i < sz →
          ((listWriteBytes (listWriteBytes (listMove b 0 0 sz) 0 []) sz
            [0]).set (sz + 1) 1).getD i 0 = b.getD i 0 := by
        intro i hi
        rw [getD_set, if_neg (by omega), listWriteBytes_getD,
          if_neg (by simp; omega)]
        show (listMove b 0 0 sz).getD i 0 = b.getD i 0
        rw [hmv i (by omega)]
      refine ⟨rfl, ?_⟩
      rw [dataBytes, dataBytes]
      show (List.range sz).map _ = (List.range sz).map _
      apply rangeMap_congr
      intro i hi
      show ((((m.updBuf p fun b2 => listMove b2 0 0 sz).updBuf p
          fun b2 => listWriteBytes b2 0 []).updBuf p
          fun b2 => listWriteBytes b2 sz [0]).write p (sz + 1) 1).read p i =
        m.read p i
      rw [read_def, hfind, read_def, hfb]
      show ((listWriteBytes (listWriteBytes (listMove b 0 0 sz) 0 []) sz
          [0]).set (sz + 1) 1).getD i 0 = b.getD i 0
      exact hB i hi

/-- After the copy-on-write check, `xs_concat`'s body leaves a heap
result with reference count 1 whenever the count slot at offset
`size + 1` lies inside the allocation (`s2 + 2 ≤ 2^c2`); with an exactly
filled buffer the store lands out of bounds and is lost. -/
theorem updBuf3_find (m : Mem) (q : Nat) (b : List Nat) (hf : m.find q = some b)
    (f1 f2 f3 : List Nat → List Nat) :
    (((m.updBuf q f1).updBuf q f2).updBuf q f3).find q = some (f3 (f2 (f1 b))) := by
  rw [find_updBuf, if_pos rfl, find_updBuf, if_pos rfl, find_updBuf, if_pos rfl,
    hf]
  rfl

theorem alloc_updBuf4_find (m : Mem) (n : Nat) (f1 f2 f3 f4 : List Nat → List Nat) :
    (((((m.alloc n).2.updBuf m.next f1).updBuf m.next f2).updBuf m.next
      f3).updBuf m.next f4).find m.next =
      some (f4 (f3 (f2 (f1 (List.replicate n 0))))) := by
  rw [find_updBuf, if_pos rfl, find_updBuf, if_pos rfl, find_updBuf, if_pos rfl,
    find_updBuf, if_pos rfl, find_alloc, if_pos rfl]
  rfl

theorem find_free_ne (m : Mem) (a q : Nat) (h : q ≠ a) :
    (m.free a).find q = m.find q := by
  rw [find_free, if_neg h]

/-- After the copy-on-write check, `xs_concat`'s body leaves a heap
result with reference count 1 whenever the count slot at offset
`size + 1` lies inside the allocation (`s2 + 2 ≤ 2^c2`); with an exactly
filled buffer the store lands out of bounds and is lost. -/
theorem xs_concat_core_ref1 (x prefx sufx : Xs) (m : Mem) (hm : MemWF m)
    (hx : XsWF m x) :
    ∀ p2 s2 c2, (xs_concat_core x prefx sufx m).1 = .hp p2 s2 c2 →
      s2 + 2 ≤ 2 ^ c2 →
      (xs_concat_core x prefx sufx m).2.read p2 (s2 + 1) = 1 := by
  intro p2 s2 c2 heq hfit2
  unfold xs_concat_core at heq ⊢
  simp only [] at heq ⊢
  by_cases hbr : xs_size x + xs_size prefx + xs_size sufx ≤ xs_capacity x
  · rw [if_pos hbr] at heq ⊢
    cases x with
    | inl buf =>
        simp only [memmoveX, memcpyX, setSize] at heq
        exact Xs.noConfusion heq
    | hp p sz cap =>
        obtain ⟨b, hfb, hblen, hcap54, hfit, hterm, hnz, hr1, hr255⟩ :=
          heapWF_elim m p sz cap hx
        simp only [memmoveX, memcpyX, setSize, setRef1] at heq ⊢
        cases heq
        apply read_write_self _ _ _ _ _ (updBuf3_find m _ b hfb _ _ _)
        rw [listWriteBytes_length, listWriteBytes_length, listMove_length, hblen]
        omega
  · rw [if_neg hbr] at heq ⊢
    by_cases hg : xs_size x + xs_size prefx + xs_size sufx ≤
        xs_capacity xs_literal_empty
    · have hgrow : xs_grow xs_literal_empty
          (xs_size x + xs_size prefx + xs_size sufx) m = (xs_literal_empty, m) := by
        unfold xs_grow
        rw [if_pos hg]
      rw [hgrow] at heq
      simp only [memcpyX, setSize, xs_literal_empty] at heq
      exact Xs.noConfusion heq
    · have hgrow : xs_grow xs_literal_empty
          (xs_size x + xs_size prefx + xs_size sufx) m =
          (.hp m.next 0 ((ilog2 (xs_size x + xs_size prefx + xs_size sufx) + 1)
            % 2 ^ 6),
          (m.alloc (2 ^ ((ilog2 (xs_size x + xs_size prefx + xs_size sufx) + 1)
            % 2 ^ 6))).2.updBuf m.next
            (fun b2 => listWriteBytes b2 0 (List.replicate 15 0 ++ [15]))) := by
        unfold xs_grow
        rw [if_neg hg]
        rfl
      rw [hgrow] at heq ⊢
      simp only [memcpyX, setSize, setRef1, xs_free] at heq ⊢
      cases heq
      cases x with
      | inl buf =>
          apply read_write_self _ _ _ _ _ (alloc_updBuf4_find m _ _ _ _ _)
          rw [listWriteBytes_length, listWriteBytes_length, listWriteBytes_length,
            listWriteBytes_length, List.length_replicate]
          omega
      | hp p sz cap =>
          obtain ⟨b, hfb, hblen, hcap54, hfit, hterm, hnz, hr1, hr255⟩ :=
            heapWF_elim m p sz cap hx
          have hlt : p < m.next := memWF_lt_next m hm p b hfb
          apply read_write_self _ _ _ _ _ ?hfr ?hlen
          case hfr =>
            rw [find_free_ne _ _ _ (by omega)]
            exact alloc_updBuf4_find m _ _ _ _ _
          case hlen =>
            rw [listWriteBytes_length, listWriteBytes_length,
              listWriteBytes_length, listWriteBytes_length, List.length_replicate]
            omega

theorem updBuf2_find (m : Mem) (q : Nat) (b : List Nat) (hf : m.find q = some b)
    (f1 f2 : List Nat → List Nat) :
    ((m.updBuf q f1).updBuf q f2).find q = some (f2 (f1 b)) := by
  rw [find_updBuf, if_pos rfl, find_updBuf, if_pos rfl, hf]
  rfl

theorem updBuf1_find (m : Mem) (q : Nat) (b : List Nat) (hf : m.find q = some b)
    (f1 : List Nat → List Nat) :
    (m.updBuf q f1).find q = some (f1 b) := by
  rw [find_updBuf, if_pos rfl, hf]
  rfl

/-- After the copy-on-write check, `xs_trim`'s body leaves a heap result
with reference count 1 whenever the count slot lies inside the
allocation. -/
theorem xs_trim_core_ref1 (x : Xs) (ts : List Nat) (m : Mem) (hx : XsWF m x) :
    ∀ p2 s2 c2, (xs_trim_core x ts m).1 = .hp p2 s2 c2 → s2 + 2 ≤ 2 ^ c2 →
      (xs_trim_core x ts m).2.read p2 (s2 + 1) = 1 := by
  intro p2 s2 c2 heq hfit2
  unfold xs_trim_core at heq ⊢
  simp only [] at heq ⊢
  cases x with
  | inl buf =>
      simp only [memmoveX, writeX] at heq
      split at heq
      · simp only [setSize] at heq
        exact Xs.noConfusion heq
      · simp only [setSize] at heq
        exact Xs.noConfusion heq
  | hp p sz cap =>
      obtain ⟨b, hfb, hblen, hcap54, hfit, hterm, hnz, hr1, hr255⟩ :=
        heapWF_elim m p sz cap hx
      simp only [memmoveX, writeX] at heq ⊢
      split
      next hc =>
        rw [if_pos hc] at heq
        simp only [setSize, setRef1] at heq ⊢
        cases heq
        apply read_write_self _ _ _ _ _ ?hf1 ?hl1
        case hf1 =>
          rw [find_write, if_pos rfl, updBuf1_find m _ b hfb]
          rfl
        case hl1 =>
          simp only [length_set, listWriteBytes_length, listMove_length, hblen]
          omega
      next hc =>
        rw [if_neg hc] at heq
        simp only [setSize, setRef1] at heq ⊢
        cases heq
        apply read_write_self _ _ _ _ _ ?hf2 ?hl2
        case hf2 => exact updBuf1_find m _ b hfb _
        case hl2 =>
          simp only [length_set, listWriteBytes_length, listMove_length, hblen]
          omega

/-- After the preliminary checks, and with a NULL retained remainder,
`xs_tok`'s body leaves any returned heap token with reference count 1
whenever the count slot lies inside the allocation. -/
theorem xs_tok_core_ref1 (x : Xs) (dl : List Nat) (m : Mem) (hm : MemWF m)
    (hx : XsWF m x) :
    ∀ y, (xs_tok_core x dl none m).1 = some y →
      ∀ p2 s2 c2, y = .hp p2 s2 c2 → s2 + 2 ≤ 2 ^ c2 →
        (xs_tok_core x dl none m).2.2.read p2 (s2 + 1) = 1 := by
  intro y heq p2 s2 c2 hy hfit2
  unfold xs_tok_core at heq ⊢
  simp only [] at heq ⊢
  cases x with
  | inl buf =>
      simp only [memmoveX, writeX, setSize] at heq
      split at heq
      · exact Option.noConfusion heq
      · split at heq
        · rw [hy] at heq
          injection heq with heq2
          exact Xs.noConfusion heq2
        · rw [hy] at heq
          injection heq with heq2
          exact Xs.noConfusion heq2
  | hp p sz cap =>
      obtain ⟨b, hfb, hblen, hcap54, hfit, hterm, hnz, hr1, hr255⟩ :=
        heapWF_elim m p sz cap hx
      have hlt : p < m.next := memWF_lt_next m hm p b hfb
      simp only [memmoveX, writeX, setSize] at heq ⊢
      split
      next hc1 =>
        rw [if_pos hc1] at heq
        exact Option.noConfusion heq
      next hc1 =>
        rw [if_neg hc1] at heq
        split
        next hc2 =>
          rw [if_pos hc2] at heq
          injection heq with heq2
          rw [hy] at heq2
          cases heq2
          simp only [setRef1]
          apply read_write_self _ _ _ _ _ ?hf1 ?hl1
          case hf1 =>
            rw [find_write, if_pos rfl, updBuf1_find m _ b hfb]
            rfl
          case hl1 =>
            simp only [length_set, listMove_length, hblen]
            omega
        next hc2 =>
          rw [if_neg hc2] at heq
          injection heq with heq2
          rw [hy] at heq2
          cases heq2
          simp only [setRef1]
          apply read_write_self _ _ _ _ _ ?hf2 ?hl2
          case hf2 =>
            rw [xs_new_find_ne]
            · rw [find_write, if_pos rfl, find_write, if_pos rfl,
                updBuf1_find m _ b hfb]
              rfl
            · exact Nat.ne_of_lt hlt
          case hl2 =>
            simp only [length_set, listMove_length, hblen]
            omega

/-! ## Concrete states used by counterexamples and witnesses -/

/-- A heap buffer of 32 bytes holding a 16-byte payload of 97s, the
terminator, and a reference count of 2 — exactly the memory two aliases
created by `xs_new` plus one `xs_copy` share. -/
def sharedBuf : List Nat := List.replicate 16 97 ++ [0, 2] ++ List.replicate 14 0

/-- A one-allocation memory whose single buffer at address 0 is
`sharedBuf`. -/
def sharedMem : Mem := ⟨1, fun q => if q = 0 then some sharedBuf else none⟩

/-- The shared heap string value aliasing `sharedMem`'s buffer. -/
def sharedXs : Xs := .hp 0 16 5

/-- The same buffer with its reference count saturated at 255. -/
def satBuf : List Nat := List.replicate 16 97 ++ [0, 255] ++ List.replicate 14 0

/-- A one-allocation memory whose single buffer at address 0 is
`satBuf`. -/
def satMem : Mem := ⟨1, fun q => if q = 0 then some satBuf else none⟩

/-! ## C6 — the tokenizer scenario -/

/-- C6: tokenizing the byte string 97 44 44 98 44 99 (the characters
a , , b , c) with delimiter set containing only 44 (a comma) — one call
with the string, then repeated calls with NULL continuing from the
retained remainder — yields exactly the tokens 97 (a), 98 (b), 99 (c)
and then the NULL no-token result; the leading, trailing and consecutive
delimiter runs produce no empty tokens. -/
theorem C6_tokenize_scenario :
    (let s0 := xs_new [97, 44, 44, 98, 44, 99] Mem.empty
     let r1 := xs_tok (some s0.1) [44] none s0.2
     let r2 := xs_tok none [44] r1.2.1 r1.2.2
     let r3 := xs_tok none [44] r2.2.1 r2.2.2
     let r4 := xs_tok none [44] r3.2.1 r3.2.2
     r1.1.map (dataBytes r1.2.2) = some [97] ∧
       r2.1.map (dataBytes r2.2.2) = some [98] ∧
       r3.1.map (dataBytes r3.2.2) = some [99] ∧
       r4.1 = none) := by
  decide

/-! ## C3 — construction layout -/

/-- C3 counterexample: for the 31-byte payload of 97s (length 32 counting
the terminator), the code picks capacity class 6, although 5 already
satisfies `2^5 = 32 ≥ 32 = length`, so the chosen class is not the
smallest `c` with `2^c ≥ length`; moreover exactly `2^6 = 64` bytes are
allocated — not `2^6` plus one extra byte for the reference count (the
count byte at offset 32 lies inside the 64). -/
theorem C3_counterexample :
    (xs_new (List.replicate 31 97) Mem.empty).1 = .hp 0 31 6 ∧
      32 ≤ 2 ^ 5 ∧ (6 : Nat) ≠ 5 ∧
      ((xs_new (List.replicate 31 97) Mem.empty).2.find 0).map List.length =
        some 64 ∧ (64 : Nat) ≠ 2 ^ 6 + 1 := by
  decide

/-! ## C4 — construction round-trip -/

/-- C4 counterexample: construction is `strlen`-based, so a byte sequence
with an embedded NUL inside its logical length is truncated at the first
NUL: for the 3-byte sequence 97 0 98, the constructed size is 1, not 3. -/
theorem C4_counterexample :
    xs_size (xs_new [97, 0, 98] Mem.empty).1 = 1 ∧ (1 : Nat) ≠ 3 := by
  decide

/-- C3 amended: for every NUL-free payload `p` (total length below 2^32),
a payload of at most 15 bytes constructs inline; a payload of at least 16
bytes constructs a heap value of size `p.length` whose capacity class
`cap` satisfies `2^cap - 1 ≥ length` for the minimal such class (where
`length = p.length + 1` counts the terminator, so `cap` is the smallest
class with `2^cap ≥ length + 1` — one more than the claim's "smallest `c`
with `2^c ≥ length`" whenever `length` is a power of two); exactly
`2^cap` bytes are allocated, and the reference-count byte at offset
`length` — inside the allocation, since `length + 1 ≤ 2^cap` — is
initialized to 1. -/
theorem C3_amended (p : List Nat) (m : Mem) (h0 : ∀ b ∈ p, b ≠ 0)
    (h32 : p.length + 1 < 2 ^ 32) :
    (p.length ≤ 15 → ∃ buf, (xs_new p m).1 = .inl buf) ∧
    (16 ≤ p.length →
      ∃ cap, (xs_new p m).1 = .hp m.next p.length cap ∧
        p.length + 1 ≤ 2 ^ cap - 1 ∧
        (∀ k, p.length + 1 ≤ 2 ^ k - 1 → cap ≤ k) ∧
        ((xs_new p m).2.find m.next).map List.length = some (2 ^ cap) ∧
        (xs_new p m).2.read m.next (p.length + 1) = 1 ∧
        p.length + 2 ≤ 2 ^ cap) := by
  have hcs : cstrlen p = p.length := cstrlen_of_nonul p h0
  constructor
  · intro hle
    obtain ⟨buf, hbuf, -⟩ := xs_new_inline_spec p m (by omega)
    exact ⟨buf, by rw [hbuf]⟩
  · intro hge
    obtain ⟨hrep, hnext, hoth, b, hfind, hlen, hdata, hterm, href, hfit, hb32⟩ :=
      xs_new_heap_spec p m (by omega) (by omega)
    have hpow64 : (2 : Nat) ^ 32 ≤ 2 ^ 64 := by norm_num
    have hlow : 2 ^ (bitlen 64 (cstrlen p + 1) - 1) ≤ cstrlen p + 1 :=
      bitlen_pos_le 64 (cstrlen p + 1) (by omega) (by omega)
    have hpos : 1 ≤ bitlen 64 (cstrlen p + 1) :=
      bitlen_pos 64 _ (by omega) (by omega)
    refine ⟨bitlen 64 (cstrlen p + 1), by rw [hrep, hcs], by omega, ?_, ?_, ?_,
      by omega⟩
    · intro k hk
      by_contra hc
      have hklt : k ≤ bitlen 64 (cstrlen p + 1) - 1 := by omega
      have hmono : (2 : Nat) ^ k ≤ 2 ^ (bitlen 64 (cstrlen p + 1) - 1) :=
        Nat.pow_le_pow_right (by omega) hklt
      have hkpos : 1 ≤ (2 : Nat) ^ k := Nat.one_le_two_pow
      omega
    · rw [hfind]
      simp [hlen]
    · rw [read_def, hfind]
      show b.getD (p.length + 1) 0 = 1
      rw [← hcs]
      exact href

/-- C3 witness: the 16-byte payload of 97s constructs a heap string at
the fresh address 0 with size 16 and capacity class 5. -/
theorem C3_witness :
    (∀ b ∈ (List.replicate 16 97 : List Nat), b ≠ 0) ∧
      (16 + 1 < 2 ^ 32) ∧
      ((16 ≤ 15 → ∃ buf, (xs_new (List.replicate 16 97) Mem.empty).1 = .inl buf) ∧
        (16 ≤ 16 →
          ∃ cap, (xs_new (List.replicate 16 97) Mem.empty).1 = .hp 0 16 cap ∧
            16 + 1 ≤ 2 ^ cap - 1 ∧
            (∀ k, 16 + 1 ≤ 2 ^ k - 1 → cap ≤ k) ∧
            ((xs_new (List.replicate 16 97) Mem.empty).2.find 0).map List.length =
              some (2 ^ cap) ∧
            (xs_new (List.replicate 16 97) Mem.empty).2.read 0 (16 + 1) = 1 ∧
            16 + 2 ≤ 2 ^ cap)) :=
  ⟨by decide, by decide,
    C3_amended (List.replicate 16 97) Mem.empty (by decide) (by decide)⟩

/-- C4 amended: for every NUL-free byte sequence `p` (each byte nonzero
and below 256, total length below 2^32), the constructed string has size
`p.length` and its data bytes reproduce `p` exactly. -/
theorem C4_amended (p : List Nat) (m : Mem) (h0 : ∀ b ∈ p, b ≠ 0 ∧ b < 256)
    (h32 : p.length + 1 < 2 ^ 32) :
    xs_size (xs_new p m).1 = p.length ∧
      dataBytes (xs_new p m).2 (xs_new p m).1 = p := by
  have h0' : ∀ b ∈ p, b ≠ 0 := fun b hb => (h0 b hb).1
  have hcs : cstrlen p = p.length := cstrlen_of_nonul p h0'
  have htw : p.takeWhile (fun c => c != 0) = p := takeWhile_eq_self p h0'
  by_cases hle : p.length ≤ 15
  · obtain ⟨buf, hbuf, hblen, hb15, hdata, hterm⟩ :=
      xs_new_inline_spec p m (by omega)
    have hsz : xs_size (xs_new p m).1 = p.length := by
      rw [hbuf]
      show 15 - buf.getD 15 0 = p.length
      rw [hb15]
      omega
    refine ⟨hsz, ?_⟩
    rw [dataBytes, hsz, hbuf]
    apply rangeMap_eq_list
    intro i hi
    show buf.getD i 0 = p.getD i 0
    rw [hdata i (by omega), htw]
  · obtain ⟨hrep, hnext, hoth, b, hfind, hlen, hdata, hterm, href, hfit, hb32⟩ :=
      xs_new_heap_spec p m (by omega) (by omega)
    have hsz : xs_size (xs_new p m).1 = p.length := by rw [hrep, hcs]; rfl
    refine ⟨hsz, ?_⟩
    rw [dataBytes, hsz, hrep]
    apply rangeMap_eq_list
    intro i hi
    show (xs_new p m).2.read m.next i = p.getD i 0
    rw [read_def, hfind]
    show b.getD i 0 = p.getD i 0
    rw [hdata i (by omega), htw]

/-- C4 witness: the 5-byte sequence 104 101 108 108 111 round-trips
through construction. -/
theorem C4_witness :
    (∀ b ∈ ([104, 101, 108, 108, 111] : List Nat), b ≠ 0 ∧ b < 256) ∧
      (5 + 1 < 2 ^ 32) ∧
      xs_size (xs_new [104, 101, 108, 108, 111] Mem.empty).1 = 5 ∧
      dataBytes (xs_new [104, 101, 108, 108, 111] Mem.empty).2
          (xs_new [104, 101, 108, 108, 111] Mem.empty).1 =
        [104, 101, 108, 108, 111] :=
  ⟨by decide, by decide,
    C4_amended [104, 101, 108, 108, 111] Mem.empty (by decide) (by decide)⟩

/-! ## C8 — trim idempotence -/

/-- C8: the trim span arithmetic is broken when every payload byte is in
the trim set.  For the string of three 12-bytes trimmed with the set
containing 12, the forward scan yields i = 3 and the backward scan yields
slen = 0, so `slen -= i` wraps around to 2^64 - 3 and the code calls
memmove with that length and stores the wrapped size — undefined
behaviour in C.  Under the wrapping model the first trim returns a
size-13 garbage string and trimming that again returns size 12, so even
idempotence fails; the claim expects the empty string both times. -/
theorem C8_trim_underflow_eval :
    (let x := xs_new [12, 12, 12] Mem.empty
     let t1 := xs_trim x.1 [12] x.2
     let t2 := xs_trim t1.1 [12] t1.2
     xs_size t1.1 = 13 ∧ xs_size t2.1 = 12 ∧ (13 : Nat) ≠ 0) := by
  decide

/-! ## C9 — growth preserves content -/

/-- C9: migrating an inline string to the heap never assigns the `size`
bitfield, which in the union overlays inline data bytes 8-14; after
`xs_grow` on the inline 10-byte string of 97s (with requested length 16)
the stored size reads back as 97 + 97·256 = 24929 instead of 10, so
growth does not preserve the string's size. -/
theorem C9_grow_loses_size_eval :
    (let x := xs_new (List.replicate 10 97) Mem.empty
     let g := xs_grow x.1 16 x.2
     xs_size x.1 = 10 ∧ xs_is_ptr g.1 = true ∧ xs_size g.1 = 24929 ∧
       (24929 : Nat) ≠ 10) := by
  decide

/-! ## C10 — mutating operations re-establish exclusivity -/

/-- C10 counterexample: `xs_trim` with an empty trim set returns
immediately, so trimming a shared heap string (reference count 2) with
the empty set leaves the result in heap layout with reference count 2,
not 1 — a mutating operation returning a still-shared heap string. -/
theorem C10_counterexample :
    xs_is_ptr (xs_trim sharedXs [] sharedMem).1 = true ∧
      refcnt (xs_trim sharedXs [] sharedMem).2 (xs_trim sharedXs [] sharedMem).1 = 2 ∧
      (2 : Nat) ≠ 1 := by
  decide

/-! ## C1 — copy-on-write isolates aliases -/

/-- C1: for a heap buffer shared between `dest` and `src` via assignment
(both hold the representation `.hp p sz cap`, count at least 2), `xs_cow`
decrements the shared count by one, leaves the original payload bytes
untouched, and replaces the value by a freshly constructed, exclusively
owned (count 1 when heap) deep copy of the same bytes; consequently
mutating `dest` with `xs_concat`, `xs_trim` or `xs_tok` never changes the
payload bytes observable through `src` or any other alias of the original
buffer. -/
theorem C1_cow_isolation (m : Mem) (p sz cap : Nat) (hm : MemWF m)
    (hs : heapWF m p sz cap) (hsh : 2 ≤ m.read p (sz + 1))
    (h32 : sz + 1 < 2 ^ 32) :
    ((xs_cow (.hp p sz cap) m).2.read p (sz + 1) = m.read p (sz + 1) - 1 ∧
      dataBytes (xs_cow (.hp p sz cap) m).2 (xs_cow (.hp p sz cap) m).1 =
        dataBytes m (.hp p sz cap) ∧
      (∀ i, i < sz → (xs_cow (.hp p sz cap) m).2.read p i = m.read p i) ∧
      (∀ q2 sz2 cap2, (xs_cow (.hp p sz cap) m).1 = .hp q2 sz2 cap2 →
        q2 ≠ p ∧ (xs_cow (.hp p sz cap) m).2.read q2 (sz2 + 1) = 1)) ∧
    (∀ prefx sufx i, i < sz →
      (xs_concat (.hp p sz cap) prefx sufx m).2.read p i = m.read p i) ∧
    (∀ ts i, i < sz →
      (xs_trim (.hp p sz cap) ts m).2.read p i = m.read p i) ∧
    (∀ dl i, i < sz →
      (xs_tok (some (.hp p sz cap)) dl none m).2.2.read p i = m.read p i) := by
  obtain ⟨b, hfb, hblen, hcap54, hfit, hterm, hnz, hr1, hr255⟩ :=
    heapWF_elim m p sz cap hs
  have hrb : m.read p (sz + 1) = b.getD (sz + 1) 0 := by rw [read_def, hfb]; rfl
  have hlt : p < m.next := memWF_lt_next m hm p b hfb
  obtain ⟨cxs, cdata, cdec, cold, chp, coth, cn1, cn2, cwf, cmw⟩ :=
    xs_cow_spec m p sz cap hm hs h32
  have hx : ptrNe (xs_cow (.hp p sz cap) m).1 p := by
    intro p2 sz2 cap2 heq
    exact (chp p2 sz2 cap2 heq).2.2.2
  have hpn : p ≠ (xs_cow (.hp p sz cap) m).2.next := by omega
  have hcond : (xs_is_ptr (Xs.hp p sz cap) &&
      (refcnt m (Xs.hp p sz cap) != 1)) = true := by
    show (true && (m.read p (sz + 1) != 1)) = true
    simp
    omega
  refine ⟨⟨?_, cdata, fun i hi => cold i (by omega), fun q2 sz2 cap2 heq =>
    ⟨(chp q2 sz2 cap2 heq).2.2.2, (chp q2 sz2 cap2 heq).2.2.1⟩⟩, ?_, ?_, ?_⟩
  · rw [cdec]
    omega
  · intro prefx sufx i hi
    have hstep : xs_concat (.hp p sz cap) prefx sufx m =
        xs_concat_core (xs_cow (.hp p sz cap) m).1 prefx sufx
          (xs_cow (.hp p sz cap) m).2 := by
      unfold xs_concat
      simp only []
      rw [if_pos hcond]
    rw [hstep,
      read_of_find_eq _ _ _ (xs_concat_core_frame (xs_cow (.hp p sz cap) m).1
        prefx sufx (xs_cow (.hp p sz cap) m).2 p hpn hx) i]
    exact cold i (by omega)
  · intro ts i hi
    by_cases hts : (ts.getD 0 0 == 0) = true
    · have hstep : xs_trim (.hp p sz cap) ts m = (.hp p sz cap, m) := by
        unfold xs_trim
        rw [if_pos hts]
      rw [hstep]
    · have hstep : xs_trim (.hp p sz cap) ts m =
          xs_trim_core (xs_cow (.hp p sz cap) m).1 ts
            (xs_cow (.hp p sz cap) m).2 := by
        unfold xs_trim
        simp only []
        rw [if_neg hts, if_pos hcond]
      rw [hstep,
        read_of_find_eq _ _ _ (xs_trim_core_frame (xs_cow (.hp p sz cap) m).1
          ts (xs_cow (.hp p sz cap) m).2 p hx) i]
      exact cold i (by omega)
  · intro dl i hi
    by_cases hdl : (dl.getD 0 0 == 0) = true
    · have hstep : xs_tok (some (.hp p sz cap)) dl none m =
          (some (.hp p sz cap), none, m) := by
        unfold xs_tok
        simp only [dataPtrNull]
        rw [if_neg Bool.false_ne_true, if_pos hdl]
      rw [hstep]
    · have hstep : xs_tok (some (.hp p sz cap)) dl none m =
          xs_tok_core (xs_cow (.hp p sz cap) m).1 dl none
            (xs_cow (.hp p sz cap) m).2 := by
        unfold xs_tok
        simp only [dataPtrNull]
        rw [if_neg Bool.false_ne_true, if_neg hdl, if_pos hcond]
      rw [hstep,
        read_of_find_eq _ _ _ (xs_tok_core_frame (xs_cow (.hp p sz cap) m).1
          dl (xs_cow (.hp p sz cap) m).2 p hpn hx) i]
      exact cold i (by omega)

/-- C1 witness: on the concrete two-alias state, copy-on-write drops the
count from 2 to 1, copies the 16 bytes, and concatenation, trim and
tokenization on one alias leave every payload byte of the shared buffer
unchanged. -/
theorem C1_witness :
    MemWF sharedMem ∧ heapWF sharedMem 0 16 5 ∧ 2 ≤ sharedMem.read 0 17 ∧
      16 + 1 < 2 ^ 32 ∧
      (((xs_cow (.hp 0 16 5) sharedMem).2.read 0 17 =
          sharedMem.read 0 17 - 1 ∧
        dataBytes (xs_cow (.hp 0 16 5) sharedMem).2
            (xs_cow (.hp 0 16 5) sharedMem).1 =
          dataBytes sharedMem (.hp 0 16 5) ∧
        (∀ i, i < 16 →
          (xs_cow (.hp 0 16 5) sharedMem).2.read 0 i = sharedMem.read 0 i) ∧
        (∀ q2 sz2 cap2,
          (xs_cow (.hp 0 16 5) sharedMem).1 = .hp q2 sz2 cap2 →
          q2 ≠ 0 ∧ (xs_cow (.hp 0 16 5) sharedMem).2.read q2 (sz2 + 1) = 1)) ∧
      (∀ prefx sufx i, i < 16 →
        (xs_concat (.hp 0 16 5) prefx sufx sharedMem).2.read 0 i =
          sharedMem.read 0 i) ∧
      (∀ ts i, i < 16 →
        (xs_trim (.hp 0 16 5) ts sharedMem).2.read 0 i = sharedMem.read 0 i) ∧
      (∀ dl i, i < 16 →
        (xs_tok (some (.hp 0 16 5)) dl none sharedMem).2.2.read 0 i =
          sharedMem.read 0 i)) := by
  have hwf : MemWF sharedMem := by
    intro a ha
    have h1 : 1 ≤ a := ha
    show (if a = 0 then some sharedBuf else none) = none
    rw [if_neg (by omega)]
  exact ⟨hwf, by decide, by decide, by decide,
    C1_cow_isolation sharedMem 0 16 5 hwf (by decide) (by decide) (by decide)⟩

/-! ## C7 — concatenation identity -/

/-- C7: `xs_concat(x, "", "")` with the empty literal as both prefix and
suffix leaves any well-formed string unchanged in content — the same size
and the same payload bytes before and after the call (going through the
copy-on-write detach when the string is a shared heap string). -/
theorem C7_concat_identity (m : Mem) (x : Xs) (hm : MemWF m) (hx : XsWF m x)
    (h32 : xs_size x + 1 < 2 ^ 32) :
    xs_size (xs_concat x xs_literal_empty xs_literal_empty m).1 = xs_size x ∧
      dataBytes (xs_concat x xs_literal_empty xs_literal_empty m).2
        (xs_concat x xs_literal_empty xs_literal_empty m).1 = dataBytes m x := by
  by_cases hcw : (xs_is_ptr x && (refcnt m x != 1)) = true
  · cases x with
    | inl buf =>
        rw [show xs_is_ptr (Xs.inl buf) = false from rfl] at hcw
        exact absurd hcw (by simp)
    | hp p sz cap =>
        have hstep : xs_concat (.hp p sz cap) xs_literal_empty xs_literal_empty m
            = xs_concat_core (xs_cow (.hp p sz cap) m).1 xs_literal_empty
              xs_literal_empty (xs_cow (.hp p sz cap) m).2 := by
          unfold xs_concat
          simp only []
          rw [if_pos hcw]
        obtain ⟨cxs, cdata, cdec, cold, chp, coth, cn1, cn2, cwf, cmw⟩ :=
          xs_cow_spec m p sz cap hm hx h32
        obtain ⟨hsz, hdata⟩ := xs_concat_core_empty_id (xs_cow (.hp p sz cap) m).1
          (xs_cow (.hp p sz cap) m).2 cwf
        rw [hstep]
        constructor
        · rw [hsz, cxs]
          rfl
        · rw [hdata, cdata]
  · have hstep : xs_concat x xs_literal_empty xs_literal_empty m =
        xs_concat_core x xs_literal_empty xs_literal_empty m := by
      unfold xs_concat
      simp only []
      rw [if_neg hcw]
    rw [hstep]
    exact xs_concat_core_empty_id x m hx

/-- C7 witness: on the concrete two-alias heap state, concatenating the
empty literal on both sides preserves the size (16) and the payload. -/
theorem C7_witness :
    MemWF sharedMem ∧ XsWF sharedMem (.hp 0 16 5) ∧ 16 + 1 < 2 ^ 32 ∧
      xs_size (xs_concat (.hp 0 16 5) xs_literal_empty xs_literal_empty
        sharedMem).1 = 16 ∧
      dataBytes (xs_concat (.hp 0 16 5) xs_literal_empty xs_literal_empty
          sharedMem).2
        (xs_concat (.hp 0 16 5) xs_literal_empty xs_literal_empty sharedMem).1 =
        dataBytes sharedMem (.hp 0 16 5) := by
  have hwf : MemWF sharedMem := by
    intro a ha
    have h1 : 1 ≤ a := ha
    show (if a = 0 then some sharedBuf else none) = none
    rw [if_neg (by omega)]
  exact ⟨hwf, by decide, by decide,
    C7_concat_identity sharedMem (.hp 0 16 5) hwf (by decide) (by decide)⟩

/-! ## C2 — assignment shares an unsaturated heap buffer -/

/-- C2: `xs_copy(dest, src)` with a heap `src` whose reference count is
strictly below 255 leaves `dest` with `src`'s exact representation (same
data pointer, hence `data(dest) == data(src)`) and increments the shared
count by exactly one; and, as the first step, if `dest` previously owned
a heap buffer (distinct from `src`'s), that buffer's count is
decremented, the buffer being freed exactly when the count reaches 0. -/
theorem C2_assign_shares (m : Mem) (p sz cap : Nat) (dest : Xs)
    (hs : heapWF m p sz cap) (hr : m.read p (sz + 1) < 255)
    (hd : ∀ q dsz dcap, dest = .hp q dsz dcap → q ≠ p ∧ heapWF m q dsz dcap) :
    (xs_copy dest (.hp p sz cap) m).1 = .hp p sz cap ∧
      (xs_copy dest (.hp p sz cap) m).2.read p (sz + 1) =
        m.read p (sz + 1) + 1 ∧
      (∀ q dsz dcap, dest = .hp q dsz dcap →
        (m.read q (dsz + 1) = 1 →
          (xs_copy dest (.hp p sz cap) m).2.find q = none) ∧
        (2 ≤ m.read q (dsz + 1) →
          (xs_copy dest (.hp p sz cap) m).2.read q (dsz + 1) =
              m.read q (dsz + 1) - 1 ∧
            (xs_copy dest (.hp p sz cap) m).2.find q ≠ none)) := by
  obtain ⟨b, hfb, hblen, hcap54, hfit, hterm, hnz, hr1, hr255⟩ :=
    heapWF_elim m p sz cap hs
  have hidx : sz + 1 < b.length := by omega
  have hrb : m.read p (sz + 1) = b.getD (sz + 1) 0 := by rw [read_def, hfb]; rfl
  cases dest with
  | inl buf =>
      have hstep : xs_copy (.inl buf) (.hp p sz cap) m =
          (if m.read p (sz + 1) == 255 then xs_new ((m.find p).getD []) m
           else (.hp p sz cap,
             m.write p (sz + 1) ((m.read p (sz + 1) + 1) % 256))) := rfl
      rw [hstep, if_neg (by simp; omega)]
      refine ⟨rfl, ?_, ?_⟩
      · rw [read_write_self m p (sz + 1) _ b hfb hidx]
        exact Nat.mod_eq_of_lt (by omega)
      · intro q dsz dcap heq
        exact Xs.noConfusion heq
  | hp q dsz dcap =>
      obtain ⟨hqp, hdwf⟩ := hd q dsz dcap rfl
      obtain ⟨bq, hfbq, hbqlen, hqcap54, hqfit, hqterm, hqnz, hq1, hq255⟩ :=
        heapWF_elim m q dsz dcap hdwf
      have hqidx : dsz + 1 < bq.length := by omega
      have hrq : m.read q (dsz + 1) = bq.getD (dsz + 1) 0 := by
        rw [read_def, hfbq]; rfl
      have hstep : xs_copy (.hp q dsz dcap) (.hp p sz cap) m =
          (let md := m.write q (dsz + 1) ((m.read q (dsz + 1) + 255) % 256)
           let m1 := if md.read q (dsz + 1) == 0 then md.free q else md
           if m1.read p (sz + 1) == 255 then xs_new ((m1.find p).getD []) m1
           else (.hp p sz cap,
             m1.write p (sz + 1) ((m1.read p (sz + 1) + 1) % 256))) := rfl
      rw [hstep]
      simp only []
      have hmd : (m.write q (dsz + 1)
          ((m.read q (dsz + 1) + 255) % 256)).read q (dsz + 1) =
          (m.read q (dsz + 1) + 255) % 256 :=
        read_write_self m q (dsz + 1) _ bq hfbq hqidx
      by_cases hone : m.read q (dsz + 1) = 1
      · have hz : ((m.write q (dsz + 1) ((m.read q (dsz + 1) + 255) % 256)).read
            q (dsz + 1) == 0) = true := by
          rw [hmd, hone]
          rfl
        rw [if_pos hz]
        have hfp : ((m.write q (dsz + 1)
            ((m.read q (dsz + 1) + 255) % 256)).free q).find p = some b := by
          rw [find_free, if_neg (Ne.symm hqp), find_write, if_neg (Ne.symm hqp)]
          exact hfb
        have hrp : ((m.write q (dsz + 1)
            ((m.read q (dsz + 1) + 255) % 256)).free q).read p (sz + 1) =
            m.read p (sz + 1) := by
          rw [read_free_ne _ _ _ _ (Ne.symm hqp),
            read_write_ne_addr _ _ _ _ _ _ (Ne.symm hqp)]
        rw [if_neg (by rw [hrp]; simp; omega)]
        refine ⟨rfl, ?_, ?_⟩
        · rw [read_write_self _ p (sz + 1) _ b hfp hidx, hrp]
          exact Nat.mod_eq_of_lt (by omega)
        · intro q2 dsz2 dcap2 heq
          cases heq
          constructor
          · intro _
            rw [find_write, if_neg hqp, find_free, if_pos rfl]
          · intro h2
            omega
      · have hnz2 : ((m.write q (dsz + 1) ((m.read q (dsz + 1) + 255) % 256)).read
            q (dsz + 1) == 0) = false := by
          rw [hmd]
          simp
          omega
        have hinner : ¬ ((m.write q (dsz + 1)
            ((m.read q (dsz + 1) + 255) % 256)).read q (dsz + 1) == 0) = true := by
          rw [hnz2]
          exact Bool.false_ne_true
        rw [if_neg hinner]
        have hrp : (m.write q (dsz + 1)
            ((m.read q (dsz + 1) + 255) % 256)).read p (sz + 1) =
            m.read p (sz + 1) :=
          read_write_ne_addr _ _ _ _ _ _ (Ne.symm hqp)
        have hfp : (m.write q (dsz + 1)
            ((m.read q (dsz + 1) + 255) % 256)).find p = some b := by
          rw [find_write, if_neg (Ne.symm hqp)]
          exact hfb
        rw [if_neg (by rw [hrp]; simp; omega)]
        refine ⟨rfl, ?_, ?_⟩
        · rw [read_write_self _ p (sz + 1) _ b hfp hidx, hrp]
          exact Nat.mod_eq_of_lt (by omega)
        · intro q2 dsz2 dcap2 heq
          cases heq
          constructor
          · intro h1
            omega
          · intro h2
            refine ⟨?_, ?_⟩
            · rw [read_write_ne_addr _ _ _ _ _ _ hqp, hmd]
              omega
            · rw [find_write, if_neg hqp, find_write, if_pos rfl, hfbq]
              simp

/-- C2 witness: assigning the empty inline value from the shared heap
string bumps the count from 2 to 3 and shares the representation. -/
theorem C2_witness :
    heapWF sharedMem 0 16 5 ∧ sharedMem.read 0 17 < 255 ∧
      (xs_copy xs_literal_empty sharedXs sharedMem).1 = sharedXs ∧
      (xs_copy xs_literal_empty sharedXs sharedMem).2.read 0 17 =
        sharedMem.read 0 17 + 1 :=
  ⟨by decide, by decide,
    (C2_assign_shares sharedMem 0 16 5 xs_literal_empty (by decide) (by decide)
      (fun _ _ _ h => Xs.noConfusion h)).1,
    (C2_assign_shares sharedMem 0 16 5 xs_literal_empty (by decide) (by decide)
      (fun _ _ _ h => Xs.noConfusion h)).2.1⟩

/-! ## C5 — assignment from a saturated source deep-clones -/

/-- C5: `xs_copy(dest, src)` with a heap `src` whose reference count sits
at the 255 ceiling does not increment the count; `dest` becomes a deep
clone with the same bytes, and whenever that clone is heap it lives at a
fresh address (not `src`'s buffer — no 256th alias) with reference count
1, while `src`'s count stays 255. -/
theorem C5_assign_saturated (m : Mem) (p sz cap : Nat) (dest : Xs)
    (hm : MemWF m) (hs : heapWF m p sz cap) (hr : m.read p (sz + 1) = 255)
    (h32 : sz + 1 < 2 ^ 32)
    (hd : ∀ q dsz dcap, dest = .hp q dsz dcap → q ≠ p ∧ heapWF m q dsz dcap) :
    dataBytes (xs_copy dest (.hp p sz cap) m).2
        (xs_copy dest (.hp p sz cap) m).1 = dataBytes m (.hp p sz cap) ∧
      (∀ q2 sz2 cap2, (xs_copy dest (.hp p sz cap) m).1 = .hp q2 sz2 cap2 →
        q2 ≠ p ∧ (xs_copy dest (.hp p sz cap) m).2.read q2 (sz2 + 1) = 1) ∧
      (xs_copy dest (.hp p sz cap) m).2.read p (sz + 1) = 255 := by
  obtain ⟨b, hfb, hblen, hcap54, hfit, hterm, hnz, hr1, hr255⟩ :=
    heapWF_elim m p sz cap hs
  have hfp1 : (xs_copy dest (.inl []) m).2.find p = m.find p :=
    destStep_find_ne dest m p (fun q dsz dcap h => (hd q dsz dcap h).1)
  have hrp1 : ∀ j, (xs_copy dest (.inl []) m).2.read p j = m.read p j :=
    read_of_find_eq _ _ _ hfp1
  have hnext1 : (xs_copy dest (.inl []) m).2.next = m.next := destStep_next dest m
  have hlt : p < m.next := memWF_lt_next m hm p b hfb
  have hcs : cstrlen b = sz := cstrlen_buffer b sz (by omega) hnz hterm
  have htake : b.takeWhile (fun c => c != 0) = b.take sz :=
    takeWhile_eq_take b sz (by omega) hnz hterm
  have htlen : (b.take sz).length = sz := by rw [List.length_take]; omega
  have hsrc : dataBytes m (.hp p sz cap) = b.take sz := by
    rw [dataBytes]
    show (List.range sz).map (readData m (.hp p sz cap)) = b.take sz
    have := rangeMap_eq_list (b.take sz) (readData m (.hp p sz cap)) ?_
    · rw [htlen] at this
      exact this
    · intro i hi
      rw [htlen] at hi
      show m.read p i = (b.take sz).getD i 0
      rw [read_def, hfb, getD_take b sz i hi (by omega)]
      rfl
  rw [xs_copy_via_destStep, if_pos (by rw [hrp1 (sz + 1), hr]; rfl)]
  rw [hfp1, hfb]
  simp only [Option.getD_some]
  by_cases hsz15 : sz ≤ 15
  · obtain ⟨buf, hbuf, hblen2, hb15, hdata2, hterm2⟩ :=
      xs_new_inline_spec b (xs_copy dest (.inl []) m).2 (by omega)
    rw [hbuf]
    have hxs : xs_size (.inl buf) = sz := by
      show 15 - buf.getD 15 0 = sz
      rw [hb15, hcs]
      omega
    refine ⟨?_, ?_, ?_⟩
    · rw [hsrc, dataBytes, hxs]
      have := rangeMap_eq_list (b.take sz) (readData (xs_copy dest (.inl []) m).2
        (.inl buf)) ?_
      · rw [htlen] at this
        exact this
      · intro i hi
        rw [htlen] at hi
        show buf.getD i 0 = (b.take sz).getD i 0
        rw [hdata2 i (by omega), htake]
    · intro q2 sz2 cap2 heq
      exact Xs.noConfusion heq
    · rw [hrp1 (sz + 1), hr]
  · obtain ⟨hrep, hnext, hoth, bn, hfind, hlen2, hdata2, hterm2, href, hfit2, hb32⟩ :=
      xs_new_heap_spec b (xs_copy dest (.inl []) m).2 (by omega) (by omega)
    rw [hcs] at hrep hdata2 href hfit2
    have hpn : p ≠ (xs_copy dest (.inl []) m).2.next := by
      rw [hnext1]
      omega
    refine ⟨?_, ?_, ?_⟩
    · rw [hsrc, dataBytes, hrep]
      show (List.range sz).map _ = b.take sz
      have := rangeMap_eq_list (b.take sz)
        (readData (xs_new b (xs_copy dest (.inl []) m).2).2
          (.hp (xs_copy dest (.inl []) m).2.next sz (bitlen 64 (sz + 1)))) ?_
      · rw [htlen] at this
        exact this
      · intro i hi
        rw [htlen] at hi
        show (xs_new b (xs_copy dest (.inl []) m).2).2.read
          (xs_copy dest (.inl []) m).2.next i = (b.take sz).getD i 0
        rw [read_def, hfind]
        show bn.getD i 0 = (b.take sz).getD i 0
        rw [hdata2 i (by omega), htake]
    · intro q2 sz2 cap2 heq
      rw [hrep] at heq
      cases heq
      constructor
      · rw [hnext1]
        omega
      · rw [read_def, hfind]
        exact href
    · rw [read_of_find_eq _ _ _ (hoth p hpn) (sz + 1), hrp1 (sz + 1), hr]

/-- C5 witness: assigning the empty inline value from a heap string whose
count is 255 leaves the count at 255 and clones the 16 payload bytes. -/
theorem C5_witness :
    MemWF satMem ∧ heapWF satMem 0 16 5 ∧ satMem.read 0 17 = 255 ∧
      dataBytes (xs_copy xs_literal_empty (Xs.hp 0 16 5) satMem).2
          (xs_copy xs_literal_empty (Xs.hp 0 16 5) satMem).1 =
        dataBytes satMem (Xs.hp 0 16 5) ∧
      (∀ q2 sz2 cap2,
        (xs_copy xs_literal_empty (Xs.hp 0 16 5) satMem).1 = .hp q2 sz2 cap2 →
        q2 ≠ 0 ∧
          (xs_copy xs_literal_empty (Xs.hp 0 16 5) satMem).2.read q2 (sz2 + 1) = 1) ∧
      (xs_copy xs_literal_empty (Xs.hp 0 16 5) satMem).2.read 0 17 = 255 := by
  have hwf : MemWF satMem := by
    intro a ha
    have h1 : 1 ≤ a := ha
    show (if a = 0 then some satBuf else none) = none
    rw [if_neg (by omega)]
  exact ⟨hwf, by decide, by decide,
    C5_assign_saturated satMem 0 16 5 xs_literal_empty hwf (by decide) (by decide)
      (by decide) (fun _ _ _ h => Xs.noConfusion h)⟩

/-- C10 (amended): for a well-formed string, `xs_concat` always leaves a
heap result with reference count 1 provided the count byte at offset
`size + 1` lies inside the allocation (`size + 2 ≤ 2^cap`); `xs_trim` and
`xs_tok` re-establish count 1 under the same proviso whenever their
trim/delimiter set is non-empty (with an empty set they return before the
count reset, the counterexample's still-shared result). -/
theorem C10_amended (m : Mem) (x prefx sufx : Xs) (ts dl : List Nat)
    (hm : MemWF m) (hx : XsWF m x) (h32 : xs_size x + 1 < 2 ^ 32) :
    (∀ p2 s2 c2, (xs_concat x prefx sufx m).1 = .hp p2 s2 c2 →
        s2 + 2 ≤ 2 ^ c2 →
        (xs_concat x prefx sufx m).2.read p2 (s2 + 1) = 1) ∧
      (ts.getD 0 0 ≠ 0 →
        ∀ p2 s2 c2, (xs_trim x ts m).1 = .hp p2 s2 c2 → s2 + 2 ≤ 2 ^ c2 →
          (xs_trim x ts m).2.read p2 (s2 + 1) = 1) ∧
      (dl.getD 0 0 ≠ 0 →
        ∀ y, (xs_tok (some x) dl none m).1 = some y →
          ∀ p2 s2 c2, y = .hp p2 s2 c2 → s2 + 2 ≤ 2 ^ c2 →
            (xs_tok (some x) dl none m).2.2.read p2 (s2 + 1) = 1) := by
  refine ⟨?_, ?_, ?_⟩
  · intro p2 s2 c2 heq hfit2
    by_cases hc : (xs_is_ptr x && (refcnt m x != 1)) = true
    · cases x with
      | inl buf => simp [xs_is_ptr] at hc
      | hp p sz cap =>
          have hstep : xs_concat (.hp p sz cap) prefx sufx m =
              xs_concat_core (xs_cow (.hp p sz cap) m).1 prefx sufx
                (xs_cow (.hp p sz cap) m).2 := by
            unfold xs_concat
            simp only []
            rw [if_pos hc]
          rw [hstep] at heq ⊢
          obtain ⟨-, -, -, -, -, -, -, -, cwf, cmw⟩ :=
            xs_cow_spec m p sz cap hm hx h32
          exact xs_concat_core_ref1 _ prefx sufx _ cmw cwf p2 s2 c2 heq hfit2
    · have hstep : xs_concat x prefx sufx m =
          xs_concat_core x prefx sufx m := by
        unfold xs_concat
        simp only []
        rw [if_neg hc]
      rw [hstep] at heq ⊢
      exact xs_concat_core_ref1 x prefx sufx m hm hx p2 s2 c2 heq hfit2
  · intro hts p2 s2 c2 heq hfit2
    have hts' : ¬(ts.getD 0 0 == 0) = true := by
      simp only [beq_iff_eq]
      exact hts
    by_cases hc : (xs_is_ptr x && (refcnt m x != 1)) = true
    · cases x with
      | inl buf => simp [xs_is_ptr] at hc
      | hp p sz cap =>
          have hstep : xs_trim (.hp p sz cap) ts m =
              xs_trim_core (xs_cow (.hp p sz cap) m).1 ts
                (xs_cow (.hp p sz cap) m).2 := by
            unfold xs_trim
            simp only []
            rw [if_neg hts', if_pos hc]
          rw [hstep] at heq ⊢
          obtain ⟨-, -, -, -, -, -, -, -, cwf, -⟩ :=
            xs_cow_spec m p sz cap hm hx h32
          exact xs_trim_core_ref1 _ ts _ cwf p2 s2 c2 heq hfit2
    · have hstep : xs_trim x ts m = xs_trim_core x ts m := by
        unfold xs_trim
        simp only []
        rw [if_neg hts', if_neg hc]
      rw [hstep] at heq ⊢
      exact xs_trim_core_ref1 x ts m hx p2 s2 c2 heq hfit2
  · intro hdl y heq p2 s2 c2 hy hfit2
    have hdl' : ¬(dl.getD 0 0 == 0) = true := by
      simp only [beq_iff_eq]
      exact hdl
    by_cases hc : (xs_is_ptr x && (refcnt m x != 1)) = true
    · cases x with
      | inl buf => simp [xs_is_ptr] at hc
      | hp p sz cap =>
          have hstep : xs_tok (some (.hp p sz cap)) dl none m =
              xs_tok_core (xs_cow (.hp p sz cap) m).1 dl none
                (xs_cow (.hp p sz cap) m).2 := by
            unfold xs_tok
            simp only [dataPtrNull]
            rw [if_neg Bool.false_ne_true, if_neg hdl', if_pos hc]
          rw [hstep] at heq ⊢
          obtain ⟨-, -, -, -, -, -, -, -, cwf, cmw⟩ :=
            xs_cow_spec m p sz cap hm hx h32
          exact xs_tok_core_ref1 _ dl _ cmw cwf y heq p2 s2 c2 hy hfit2
    · have hstep : xs_tok (some x) dl none m = xs_tok_core x dl none m := by
        unfold xs_tok
        simp only [dataPtrNull]
        rw [if_neg Bool.false_ne_true, if_neg hdl', if_neg hc]
      rw [hstep] at heq ⊢
      exact xs_tok_core_ref1 x dl m hm hx y heq p2 s2 c2 hy hfit2

/-- C10 witness: on the shared two-alias state, concatenating with empty
affixes, trimming with the set {a} and tokenizing with the delimiter set
{,} each leave any heap result with reference count 1 whenever the count
slot fits the allocation. -/
theorem C10_witness :
    MemWF sharedMem ∧ XsWF sharedMem (.hp 0 16 5) ∧
      xs_size (Xs.hp 0 16 5) + 1 < 2 ^ 32 ∧
      ((∀ p2 s2 c2,
          (xs_concat (.hp 0 16 5) xs_literal_empty xs_literal_empty
              sharedMem).1 = .hp p2 s2 c2 →
          s2 + 2 ≤ 2 ^ c2 →
          (xs_concat (.hp 0 16 5) xs_literal_empty xs_literal_empty
              sharedMem).2.read p2 (s2 + 1) = 1) ∧
        (([97] : List Nat).getD 0 0 ≠ 0 →
          ∀ p2 s2 c2, (xs_trim (.hp 0 16 5) [97] sharedMem).1 = .hp p2 s2 c2 →
            s2 + 2 ≤ 2 ^ c2 →
            (xs_trim (.hp 0 16 5) [97] sharedMem).2.read p2 (s2 + 1) = 1) ∧
        (([44] : List Nat).getD 0 0 ≠ 0 →
          ∀ y, (xs_tok (some (.hp 0 16 5)) [44] none sharedMem).1 = some y →
            ∀ p2 s2 c2, y = .hp p2 s2 c2 → s2 + 2 ≤ 2 ^ c2 →
              (xs_tok (some (.hp 0 16 5)) [44] none
                  sharedMem).2.2.read p2 (s2 + 1) = 1)) := by
  have hwf : MemWF sharedMem := by
    intro a ha
    have h1 : 1 ≤ a := ha
    show (if a = 0 then some sharedBuf else none) = none
    rw [if_neg (by omega)]
  exact ⟨hwf, by decide, by decide,
    C10_amended sharedMem (.hp 0 16 5) xs_literal_empty xs_literal_empty
      [97] [44] hwf (by decide) (by decide)⟩

end XS
